import Mathlib

namespace PageSim

/-!
Verification of the page-replacement simulator (`src/app.py`).

The core of the program is three simulators — `fifo`, `lru`, `optimal` —
over a reference string (list of page ids) and a frame count, together
with a state recorder `record_state` and two entry points `simulate` and
`compare`.  Page ids are modelled as integers; the Python `num_frames`
argument is modelled as an integer (the code never checks its sign, only
Python truthiness).  The Python `list.remove` in `optimal` can raise
`ValueError`; `optimal` is therefore modelled in the `Except` monad,
with error string "ValueError" standing for that uncaught exception.
-/

/-- Result dictionary returned by each simulator:
`{"faults": .., "hits": .., "states": .., "results": ..}`. -/
structure SimResult where
  faults : ℕ
  hits : ℕ
  states : List (List (Option ℤ))
  results : List String
  deriving Repr, DecidableEq

/-- Models `_record_state(current_frames, max_frames)`: copy the frames and pad
with `None` on the right while shorter than `max_frames`. -/
def record_state (current_frames : List ℤ) (max_frames : ℤ) : List (Option ℤ) :=
  current_frames.map some ++
    List.replicate (max_frames - current_frames.length).toNat none

/-- One step of the `fifo` loop body acting on the frame list:
hit leaves the frames alone; a fault pops the head when
`len(current_frames) == num_frames` and appends the page at the tail. -/
def fifoUpdate (num_frames : ℤ) (current_frames : List ℤ) (page : ℤ) : List ℤ :=
  if page ∈ current_frames then current_frames
  else
    (if (current_frames.length : ℤ) = num_frames then current_frames.drop 1
     else current_frames) ++ [page]

/-- The `fifo` loop over the remaining pages, given the current frames. -/
def fifoGo (num_frames : ℤ) (current_frames : List ℤ) : List ℤ → SimResult
  | [] => ⟨0, 0, [], []⟩
  | page :: rest =>
    if page ∈ current_frames then
      let r := fifoGo num_frames current_frames rest
      ⟨r.faults, r.hits + 1,
        record_state current_frames num_frames :: r.states, "Hit" :: r.results⟩
    else
      let frames' := fifoUpdate num_frames current_frames page
      let r := fifoGo num_frames frames' rest
      ⟨r.faults + 1, r.hits,
        record_state frames' num_frames :: r.states, "Fault" :: r.results⟩

/-- Function `fifo(page_list, num_frames)` from `src/app.py`. -/
def fifo (page_list : List ℤ) (num_frames : ℤ) : SimResult :=
  fifoGo num_frames [] page_list

/-- One step of the `lru` loop body on the recency stack: on a hit the page
is removed from its position and re-appended at the tail; on a fault the
head is popped when the stack is full and the page appended at the tail. -/
def lruUpdate (num_frames : ℤ) (stack : List ℤ) (page : ℤ) : List ℤ :=
  if page ∈ stack then stack.erase page ++ [page]
  else
    (if (stack.length : ℤ) = num_frames then stack.drop 1 else stack) ++ [page]

/-- The `lru` loop: returns the fault count, the state trace and the
hit/miss log for the remaining pages (hits are computed afterwards as
`len(page_list) - faults`, as in the source). -/
def lruGo (num_frames : ℤ) (stack : List ℤ) :
    List ℤ → ℕ × List (List (Option ℤ)) × List String
  | [] => ⟨0, [], []⟩
  | page :: rest =>
    let stack' := lruUpdate num_frames stack page
    let r := lruGo num_frames stack' rest
    if page ∈ stack then
      ⟨r.1, record_state stack' num_frames :: r.2.1, "Hit" :: r.2.2⟩
    else
      ⟨r.1 + 1, record_state stack' num_frames :: r.2.1, "Fault" :: r.2.2⟩

/-- Function `lru(page_list, num_frames)` from `src/app.py`. -/
def lru (page_list : List ℤ) (num_frames : ℤ) : SimResult :=
  let r := lruGo num_frames [] page_list
  ⟨r.1, page_list.length - r.1, r.2.1, r.2.2⟩

/-- Index of the first occurrence of `a` in a list, `none` when absent:
models Python `list.index` together with its `ValueError`. -/
def idx? (a : ℤ) : List ℤ → Option ℕ
  | [] => none
  | b :: l => if a = b then some 0 else (idx? a l).map (· + 1)

/-- The victim-selection scan of `optimal`: iterate the resident frames,
tracking `victim_page` and `farthest_use_index` (initially `None` and
`-1`); a frame whose next use is strictly beyond the current farthest
becomes the candidate, and a frame with no future use is returned
immediately (the `ValueError` short circuit). -/
def victimScan (future_pages : List ℤ) :
    List ℤ → Option ℤ → ℤ → Option ℤ
  | [], victim_page, _ => victim_page
  | f :: fs, victim_page, farthest_use_index =>
    match idx? f future_pages with
    | some next_use =>
      if (next_use : ℤ) > farthest_use_index then
        victimScan future_pages fs (some f) next_use
      else
        victimScan future_pages fs victim_page farthest_use_index
    | none => some f

/-- The `optimal` loop.  On a fault with no free frame it scans for a
victim; if the scan yields no victim, or the victim is not resident,
`frames.remove` would raise, which is modelled as `Except.error`. -/
def optimalGo (num_frames : ℤ) (frames : List ℤ) :
    List ℤ → Except String SimResult
  | [] => .ok ⟨0, 0, [], []⟩
  | page :: future_pages =>
    if page ∈ frames then do
      let r ← optimalGo num_frames frames future_pages
      .ok ⟨r.faults, r.hits + 1,
        record_state frames num_frames :: r.states, "Hit" :: r.results⟩
    else if (frames.length : ℤ) < num_frames then do
      let r ← optimalGo num_frames (frames ++ [page]) future_pages
      .ok ⟨r.faults + 1, r.hits,
        record_state (frames ++ [page]) num_frames :: r.states,
        "Fault" :: r.results⟩
    else
      match victimScan future_pages frames none (-1) with
      | some victim_page =>
        if victim_page ∈ frames then do
          let frames' := frames.erase victim_page ++ [page]
          let r ← optimalGo num_frames frames' future_pages
          .ok ⟨r.faults + 1, r.hits,
            record_state frames' num_frames :: r.states, "Fault" :: r.results⟩
        else .error "ValueError"
      | none => .error "ValueError"

/-- Function `optimal(page_list, num_frames)` from `src/app.py`. -/
def optimal (page_list : List ℤ) (num_frames : ℤ) : Except String SimResult :=
  optimalGo num_frames [] page_list

/-- The `/simulate` endpoint body: Python-truthiness validation of the
three parameters (`not all([pages, frames_count, algo])`), then dispatch
on the algorithm name. -/
def simulate (pages : List ℤ) (frames_count : ℤ) (algo : String) :
    Except String SimResult :=
  if pages = [] ∨ frames_count = 0 ∨ algo = "" then .error "Missing parameters"
  else if algo = "FIFO" then .ok (fifo pages frames_count)
  else if algo = "LRU" then .ok (lru pages frames_count)
  else if algo = "Optimal" then optimal pages frames_count
  else .error "Invalid algorithm"

/-- The `/compare` endpoint body: truthiness validation of the two
parameters, then the three fault counts on identical input. -/
def compare (pages : List ℤ) (frames_count : ℤ) :
    Except String (ℕ × ℕ × ℕ) :=
  if pages = [] ∨ frames_count = 0 then .error "Missing parameters"
  else do
    let o ← optimal pages frames_count
    .ok ⟨(fifo pages frames_count).faults, (lru pages frames_count).faults,
      o.faults⟩

/-- Next-use distance of page `x` in the remaining reference suffix `l`,
with `⊤` when the page never occurs again. -/
def nu (l : List ℤ) (x : ℤ) : ℕ∞ :=
  match idx? x l with
  | some n => (n : ℕ∞)
  | none => ⊤

/-- Minimal number of faults any demand-paging schedule can achieve on the
remaining reference suffix, starting from cache `C` with `K` frames: a hit
costs nothing; a fault admits the page, evicting a best-possible victim
when the cache is full.  This is the offline optimum against which the
three simulators are compared. -/
def minCost (K : ℕ) : List ℤ → Finset ℤ → ℕ
  | [], _ => 0
  | p :: rest, C =>
    if p ∈ C then minCost K rest C
    else if C.card < K then 1 + minCost K rest (insert p C)
    else if h : C.Nonempty then
      1 + C.inf' h fun v => minCost K rest (insert p (C.erase v))
    else 1 + minCost K rest C


/-- Frame evolution under a step function: the list of frame contents
after each step, starting from `frames`. -/
def framesTrace (upd : List ℤ → ℤ → List ℤ) (frames : List ℤ) :
    List ℤ → List (List ℤ)
  | [] => []
  | p :: rest =>
    upd frames p :: framesTrace upd (upd frames p) rest

/-! ### Basic lemmas -/

theorem idx?_eq_none_iff (a : ℤ) (l : List ℤ) : idx? a l = none ↔ a ∉ l := by
  induction l with
  | nil => simp [idx?]
  | cons b l ih =>
    by_cases h : a = b
    · simp [idx?, h]
    · simp [idx?, h, ih]

theorem nu_eq_top_iff (l : List ℤ) (x : ℤ) : nu l x = ⊤ ↔ idx? x l = none := by
  unfold nu
  cases h : idx? x l with
  | none => simp
  | some n => simp [ENat.coe_ne_top]

theorem nu_cons_of_ne (p x : ℤ) (l : List ℤ) (h : x ≠ p) :
    nu (p :: l) x = 1 + nu l x := by
  unfold nu
  rw [show idx? x (p :: l) = (idx? x l).map (· + 1) by simp [idx?, h]]
  cases hx : idx? x l with
  | none => simp [Option.map]
  | some n =>
    simp [Option.map]
    ring

theorem nu_cons_eq_zero_iff (p x : ℤ) (l : List ℤ) :
    nu (p :: l) x = 0 ↔ x = p := by
  unfold nu
  by_cases h : x = p
  · simp [idx?, h]
  · simp only [idx?, if_neg h]
    cases hx : idx? x l with
    | none => simp [h]
    | some n => simp [Option.map, h]

theorem record_state_length (fr : List ℤ) (max_frames : ℤ)
    (h : (fr.length : ℤ) ≤ max_frames) :
    (record_state fr max_frames).length = max_frames.toNat := by
  simp only [record_state, List.length_append, List.length_map,
    List.length_replicate]
  omega

theorem record_state_reduceOption (fr : List ℤ) (max_frames : ℤ) :
    (record_state fr max_frames).reduceOption = fr := by
  unfold record_state
  rw [List.reduceOption_append]
  have h1 : (fr.map some).reduceOption = fr := by
    induction fr with
    | nil => rfl
    | cons a l ih => simp [List.reduceOption_cons_of_some, ih]
  have h2 : (List.replicate (max_frames - fr.length).toNat
      (none : Option ℤ)).reduceOption = [] := by
    induction (max_frames - fr.length).toNat with
    | zero => rfl
    | succ n ih => simp [List.replicate_succ, List.reduceOption_cons_of_none, ih]
  rw [h1, h2, List.append_nil]

theorem mem_record_state (fr : List ℤ) (max_frames : ℤ) (x : ℤ) (h : x ∈ fr) :
    some x ∈ record_state fr max_frames := by
  unfold record_state
  exact List.mem_append_left _ (List.mem_map_of_mem some h)

theorem toFinset_append_singleton (l : List ℤ) (p : ℤ) :
    (l ++ [p]).toFinset = insert p l.toFinset := by
  ext x
  simp [or_comm]

theorem toFinset_erase_of_nodup (l : List ℤ) (a : ℤ) (h : l.Nodup) :
    (l.erase a).toFinset = l.toFinset.erase a := by
  ext x
  simp [h.mem_erase_iff, List.mem_toFinset, Finset.mem_erase]

theorem minCost_nil (K : ℕ) (C : Finset ℤ) : minCost K [] C = 0 := rfl

theorem minCost_hit (K : ℕ) (p : ℤ) (rest : List ℤ) (C : Finset ℤ)
    (h : p ∈ C) : minCost K (p :: rest) C = minCost K rest C := by
  conv_lhs => unfold minCost
  simp [h]

theorem minCost_notfull (K : ℕ) (p : ℤ) (rest : List ℤ) (C : Finset ℤ)
    (h : p ∉ C) (h2 : C.card < K) :
    minCost K (p :: rest) C = 1 + minCost K rest (insert p C) := by
  conv_lhs => unfold minCost
  simp [h, h2]

theorem minCost_full (K : ℕ) (p : ℤ) (rest : List ℤ) (C : Finset ℤ)
    (h : p ∉ C) (h2 : ¬ C.card < K) (hne : C.Nonempty) :
    minCost K (p :: rest) C =
      1 + C.inf' hne fun v => minCost K rest (insert p (C.erase v)) := by
  conv_lhs => unfold minCost
  simp [h, h2, hne]

/-! ### Victim-scan lemmas -/

theorem nu_of_idx (l : List ℤ) (x : ℤ) (n : ℕ) (h : idx? x l = some n) :
    nu l x = (n : ℕ∞) := by
  unfold nu
  rw [h]

theorem nu_of_idx_none (l : List ℤ) (x : ℤ) (h : idx? x l = none) :
    nu l x = ⊤ := by
  unfold nu
  rw [h]

theorem victimScan_go_max (future : List ℤ) (fs : List ℤ) :
    ∀ (c : ℤ) (n : ℕ), idx? c future = some n →
    ∃ b, victimScan future fs (some c) (n : ℤ) = some b ∧
      (b = c ∨ b ∈ fs) ∧ nu future c ≤ nu future b ∧
      ∀ v ∈ fs, nu future v ≤ nu future b := by
  induction fs with
  | nil =>
    intro c n hc
    exact ⟨c, rfl, Or.inl rfl, le_refl _, by simp⟩
  | cons f fs ih =>
    intro c n hc
    cases hf : idx? f future with
    | none =>
      refine ⟨f, by simp [victimScan, hf], Or.inr (List.mem_cons_self f fs),
        ?_, ?_⟩
      · rw [nu_of_idx_none future f hf]
        exact le_top
      · intro v _
        rw [nu_of_idx_none future f hf]
        exact le_top
    | some m =>
      by_cases hgt : (m : ℤ) > (n : ℤ)
      · obtain ⟨b, hb, hmem, hle, hall⟩ := ih f m hf
        refine ⟨b, by simp [victimScan, hf, hgt, hb], ?_, ?_, ?_⟩
        · rcases hmem with h1 | h1
          · exact Or.inr (h1 ▸ List.mem_cons_self f fs)
          · exact Or.inr (List.mem_cons_of_mem f h1)
        · calc nu future c = (n : ℕ∞) := nu_of_idx future c n hc
            _ ≤ (m : ℕ∞) := by
              have : n ≤ m := by exact_mod_cast le_of_lt hgt
              exact_mod_cast this
            _ = nu future f := (nu_of_idx future f m hf).symm
            _ ≤ nu future b := hle
        · intro v hv
          rcases List.mem_cons.mp hv with h1 | h1
          · exact h1 ▸ hle
          · exact hall v h1
      · obtain ⟨b, hb, hmem, hle, hall⟩ := ih c n hc
        refine ⟨b, by simp [victimScan, hf, hgt, hb], ?_, hle, ?_⟩
        · rcases hmem with h1 | h1
          · exact Or.inl h1
          · exact Or.inr (List.mem_cons_of_mem f h1)
        · intro v hv
          rcases List.mem_cons.mp hv with h1 | h1
          · subst h1
            calc nu future v = (m : ℕ∞) := nu_of_idx future v m hf
              _ ≤ (n : ℕ∞) := by
                have : m ≤ n := by omega
                exact_mod_cast this
              _ = nu future c := (nu_of_idx future c n hc).symm
              _ ≤ nu future b := hle
          · exact hall v h1

theorem victimScan_max (future frames : List ℤ) (h : frames ≠ []) :
    ∃ b, victimScan future frames none (-1) = some b ∧ b ∈ frames ∧
      ∀ v ∈ frames, nu future v ≤ nu future b := by
  cases frames with
  | nil => exact absurd rfl h
  | cons f fs =>
    cases hf : idx? f future with
    | none =>
      refine ⟨f, by simp [victimScan, hf], List.mem_cons_self f fs, ?_⟩
      intro v _
      rw [nu_of_idx_none future f hf]
      exact le_top
    | some m =>
      obtain ⟨b, hb, hmem, hle, hall⟩ := victimScan_go_max future fs f m hf
      have hstep : victimScan future (f :: fs) none (-1) =
          victimScan future fs (some f) (m : ℤ) := by
        have hm : ((m : ℤ) > -1) := by omega
        simp [victimScan, hf, hm]
      refine ⟨b, hstep ▸ hb, ?_, ?_⟩
      · rcases hmem with h1 | h1
        · exact h1 ▸ List.mem_cons_self f fs
        · exact List.mem_cons_of_mem f h1
      · intro v hv
        rcases List.mem_cons.mp hv with h1 | h1
        · exact h1 ▸ hle
        · exact hall v h1

theorem exists_first_split (P : ℤ → Prop) [DecidablePred P] (l : List ℤ)
    (h : ∃ g ∈ l, P g) :
    ∃ l₁ g₀ l₂, l = l₁ ++ g₀ :: l₂ ∧ P g₀ ∧ ∀ g ∈ l₁, ¬ P g := by
  induction l with
  | nil => simp at h
  | cons a l ih =>
    by_cases ha : P a
    · exact ⟨[], a, l, rfl, ha, by simp⟩
    · obtain ⟨g, hg, hPg⟩ := h
      rcases List.mem_cons.mp hg with h1 | h1
      · exact absurd (h1 ▸ hPg) ha
      · obtain ⟨l₁, g₀, l₂, heq, hP0, hnone⟩ := ih ⟨g, h1, hPg⟩
        refine ⟨a :: l₁, g₀, l₂, by rw [heq, List.cons_append], hP0, ?_⟩
        intro g hgmem
        rcases List.mem_cons.mp hgmem with h2 | h2
        · exact h2 ▸ ha
        · exact hnone g h2

theorem victimScan_first_none (future : List ℤ) (l₁ : List ℤ) :
    ∀ (f₀ : ℤ) (l₂ : List ℤ) (acc : Option ℤ) (far : ℤ),
      (∀ g ∈ l₁, idx? g future ≠ none) → idx? f₀ future = none →
      victimScan future (l₁ ++ f₀ :: l₂) acc far = some f₀ := by
  induction l₁ with
  | nil =>
    intro f₀ l₂ acc far _ h0
    simp [victimScan, h0]
  | cons g l₁ ih =>
    intro f₀ l₂ acc far hall h0
    have hg : idx? g future ≠ none := hall g (List.mem_cons_self g l₁)
    cases hgi : idx? g future with
    | none => exact absurd hgi hg
    | some m =>
      have hrest : ∀ g' ∈ l₁, idx? g' future ≠ none :=
        fun g' hg' => hall g' (List.mem_cons_of_mem g hg')
      by_cases hc : (m : ℤ) > far
      · rw [List.cons_append]
        simp only [victimScan, hgi, if_pos hc]
        exact ih f₀ l₂ (some g) (m : ℤ) hrest h0
      · rw [List.cons_append]
        simp only [victimScan, hgi, if_neg hc]
        exact ih f₀ l₂ acc far hrest h0

theorem victimScan_go_firstmax (future : List ℤ) (fs : List ℤ) :
    ∀ (c : ℤ) (n : ℕ), idx? c future = some n →
      (∀ g ∈ fs, idx? g future ≠ none) →
      ∃ b, victimScan future fs (some c) (n : ℤ) = some b ∧
        ((b = c ∧ ∀ g ∈ fs, ∀ m, idx? g future = some m → m ≤ n) ∨
         (∃ l₁ l₂ nb, fs = l₁ ++ b :: l₂ ∧ idx? b future = some nb ∧ n < nb ∧
           (∀ g ∈ l₁, ∀ m, idx? g future = some m → m < nb) ∧
           (∀ g ∈ l₂, ∀ m, idx? g future = some m → m ≤ nb))) := by
  induction fs with
  | nil =>
    intro c n hc _
    exact ⟨c, rfl, Or.inl ⟨rfl, by simp⟩⟩
  | cons f fs ih =>
    intro c n hc hall
    cases hf : idx? f future with
    | none => exact absurd hf (hall f (List.mem_cons_self f fs))
    | some m =>
      have hrest : ∀ g ∈ fs, idx? g future ≠ none :=
        fun g hg => hall g (List.mem_cons_of_mem f hg)
      by_cases hgt : (m : ℤ) > (n : ℤ)
      · have hnm : n < m := by exact_mod_cast hgt
        obtain ⟨b, hb, hcase⟩ := ih f m hf hrest
        refine ⟨b, by simp [victimScan, hf, hgt, hb], Or.inr ?_⟩
        rcases hcase with ⟨rfl, hbound⟩ | ⟨l₁, l₂, nb, heq, hbidx, hlt, hpre, hpost⟩
        · exact ⟨[], fs, m, rfl, hf, hnm, by simp, hbound⟩
        · refine ⟨f :: l₁, l₂, nb, by rw [heq, List.cons_append], hbidx,
            lt_trans hnm hlt, ?_, hpost⟩
          intro g hg m' hm'
          rcases List.mem_cons.mp hg with h1 | h1
          · subst h1
            rw [hf] at hm'
            have : m' = m := (Option.some.inj hm').symm
            omega
          · exact hpre g h1 m' hm'
      · have hmn : m ≤ n := by omega
        obtain ⟨b, hb, hcase⟩ := ih c n hc hrest
        refine ⟨b, by simp [victimScan, hf, hgt, hb], ?_⟩
        rcases hcase with ⟨rfl, hbound⟩ | ⟨l₁, l₂, nb, heq, hbidx, hlt, hpre, hpost⟩
        · refine Or.inl ⟨rfl, ?_⟩
          intro g hg m' hm'
          rcases List.mem_cons.mp hg with h1 | h1
          · subst h1
            rw [hf] at hm'
            have : m' = m := (Option.some.inj hm').symm
            omega
          · exact hbound g h1 m' hm'
        · refine Or.inr ⟨f :: l₁, l₂, nb, by rw [heq, List.cons_append], hbidx,
            hlt, ?_, hpost⟩
          intro g hg m' hm'
          rcases List.mem_cons.mp hg with h1 | h1
          · subst h1
            rw [hf] at hm'
            have : m' = m := (Option.some.inj hm').symm
            omega
          · exact hpre g h1 m' hm'

/-! ### Cache-exchange lemmas for the offline optimum -/

theorem swap_insert_erase_comm (C : Finset ℤ) (x y p v : ℤ)
    (hyv : y ≠ v) (hpx : p ≠ x) (hpy : p ≠ y) :
    insert p ((insert y (C.erase x)).erase v) =
      insert y ((insert p (C.erase v)).erase x) := by
  ext z
  simp only [Finset.mem_insert, Finset.mem_erase]
  constructor
  · rintro (rfl | ⟨h1, (rfl | ⟨h2, h3⟩)⟩)
    · exact Or.inr ⟨hpx, Or.inl rfl⟩
    · exact Or.inl rfl
    · exact Or.inr ⟨h2, Or.inr ⟨h1, h3⟩⟩
  · rintro (rfl | ⟨h1, (rfl | ⟨h2, h3⟩)⟩)
    · exact Or.inr ⟨hyv, Or.inl rfl⟩
    · exact Or.inl rfl
    · exact Or.inr ⟨h2, Or.inr ⟨h1, h3⟩⟩

theorem erase_insert_erase (C : Finset ℤ) (p b v : ℤ)
    (hv : v ∈ C) (hbv : b ≠ v) (hpb : p ≠ b) :
    insert v ((insert p (C.erase v)).erase b) = insert p (C.erase b) := by
  ext z
  simp only [Finset.mem_insert, Finset.mem_erase]
  constructor
  · rintro (rfl | ⟨h1, (rfl | ⟨h2, h3⟩)⟩)
    · exact Or.inr ⟨Ne.symm hbv, hv⟩
    · exact Or.inl rfl
    · exact Or.inr ⟨h1, h3⟩
  · rintro (rfl | ⟨h1, h3⟩)
    · exact Or.inr ⟨hpb, Or.inl rfl⟩
    · by_cases hzv : z = v
      · exact Or.inl hzv
      · exact Or.inr ⟨h1, Or.inr ⟨hzv, h3⟩⟩

theorem swap_card (C : Finset ℤ) (x y : ℤ) (hx : x ∈ C) (hy : y ∉ C) :
    (insert y (C.erase x)).card = C.card := by
  have h1 : y ∉ C.erase x := fun h => hy (Finset.mem_of_mem_erase h)
  rw [Finset.card_insert_of_not_mem h1, Finset.card_erase_of_mem hx]
  have : 0 < C.card := Finset.card_pos.mpr ⟨x, hx⟩
  omega

theorem swap_aux1 (C : Finset ℤ) (x y v : ℤ) (hvx : v ≠ x) (hvC : v ∈ C)
    (hxy : x ≠ y) :
    insert v ((insert y (C.erase v)).erase x) = insert y (C.erase x) := by
  ext z
  simp only [Finset.mem_insert, Finset.mem_erase]
  constructor
  · rintro (rfl | ⟨h1, (rfl | ⟨h2, h3⟩)⟩)
    · exact Or.inr ⟨hvx, hvC⟩
    · exact Or.inl rfl
    · exact Or.inr ⟨h1, h3⟩
  · rintro (rfl | ⟨h1, h3⟩)
    · exact Or.inr ⟨Ne.symm hxy, Or.inl rfl⟩
    · by_cases hzv : z = v
      · exact Or.inl hzv
      · exact Or.inr ⟨h1, Or.inr ⟨hzv, h3⟩⟩

theorem minCost_swap_weak (K : ℕ) (r : List ℤ) :
    ∀ (C : Finset ℤ) (x y : ℤ), x ∈ C → y ∉ C → C.card = K →
      minCost K r (insert y (C.erase x)) ≤ 1 + minCost K r C := by
  induction r with
  | nil =>
    intro C x y _ _ _
    simp [minCost_nil]
  | cons p rest ih =>
    intro C x y hx hy hcard
    have hxy : x ≠ y := fun h => hy (h ▸ hx)
    have hyex : y ∉ C.erase x := fun h => hy (Finset.mem_of_mem_erase h)
    have hyC' : y ∈ insert y (C.erase x) := Finset.mem_insert_self y _
    have hxC' : x ∉ insert y (C.erase x) := by
      simp [Finset.mem_insert, Finset.mem_erase, hxy]
    have hcard' : (insert y (C.erase x)).card = K :=
      hcard ▸ swap_card C x y hx hy
    have hK1 : 1 ≤ K := hcard ▸ Finset.card_pos.mpr ⟨x, hx⟩
    have hCne : C.Nonempty := ⟨x, hx⟩
    have hC'ne : (insert y (C.erase x)).Nonempty := ⟨y, hyC'⟩
    have hnotlt : ¬ C.card < K := by omega
    have hnotlt' : ¬ (insert y (C.erase x)).card < K := by omega
    by_cases hpC : p ∈ C
    · by_cases hpx : p = x
      · subst hpx
        rw [minCost_hit K p rest C hpC,
          minCost_full K p rest _ hxC' hnotlt' hC'ne]
        have hid : insert p ((insert y (C.erase p)).erase y) = C := by
          rw [Finset.erase_insert hyex]
          exact Finset.insert_erase hpC
        have hle := Finset.inf'_le
          (fun v => minCost K rest (insert p ((insert y (C.erase p)).erase v)))
          hyC'
        rw [hid] at hle
        omega
      · have hpy : p ≠ y := fun h => hy (h ▸ hpC)
        have hpC' : p ∈ insert y (C.erase x) := by
          simp [Finset.mem_insert, Finset.mem_erase, hpx, hpC, hpy]
        rw [minCost_hit K p rest C hpC, minCost_hit K p rest _ hpC']
        have := ih C x y hx hy hcard
        omega
    · have hpx : p ≠ x := fun h => hpC (h ▸ hx)
      by_cases hpy : p = y
      · subst hpy
        rw [minCost_hit K p rest _ hyC',
          minCost_full K p rest C hpC hnotlt hCne]
        obtain ⟨v₀, hv₀, hinf⟩ := Finset.exists_mem_eq_inf' hCne
          (fun v => minCost K rest (insert p (C.erase v)))
        rw [hinf]
        by_cases hvx : v₀ = x
        · subst hvx
          omega
        · have hxD : x ∈ insert p (C.erase v₀) :=
            Finset.mem_insert_of_mem
              (Finset.mem_erase.mpr ⟨fun h => hvx h.symm, hx⟩)
          have hvD : v₀ ∉ insert p (C.erase v₀) := by
            intro h
            rcases Finset.mem_insert.mp h with h1 | h1
            · exact hpC (h1 ▸ hv₀)
            · exact (Finset.mem_erase.mp h1).1 rfl
          have hcardD : (insert p (C.erase v₀)).card = K := by
            rw [Finset.card_insert_of_not_mem
              (fun h => hpC (Finset.mem_of_mem_erase h)),
              Finset.card_erase_of_mem hv₀]
            omega
          have hkey : insert v₀ ((insert p (C.erase v₀)).erase x) =
              insert p (C.erase x) := swap_aux1 C x p v₀ hvx hv₀ (Ne.symm hpx)
          have hih := ih (insert p (C.erase v₀)) x v₀ hxD hvD hcardD
          rw [hkey] at hih
          omega
      · have hpC' : p ∉ insert y (C.erase x) := by
          intro h
          rcases Finset.mem_insert.mp h with h1 | h1
          · exact hpy h1
          · exact hpC (Finset.mem_of_mem_erase h1)
        rw [minCost_full K p rest C hpC hnotlt hCne,
          minCost_full K p rest _ hpC' hnotlt' hC'ne]
        obtain ⟨v₀, hv₀, hinf⟩ := Finset.exists_mem_eq_inf' hCne
          (fun v => minCost K rest (insert p (C.erase v)))
        rw [hinf]
        by_cases hvx : v₀ = x
        · subst hvx
          have hle := Finset.inf'_le
            (fun v => minCost K rest (insert p ((insert y (C.erase v₀)).erase v)))
            hyC'
          rw [Finset.erase_insert hyex] at hle
          omega
        · have hv₀C' : v₀ ∈ insert y (C.erase x) :=
            Finset.mem_insert_of_mem (Finset.mem_erase.mpr ⟨hvx, hv₀⟩)
          have hle := Finset.inf'_le
            (fun v => minCost K rest (insert p ((insert y (C.erase x)).erase v)))
            hv₀C'
          have hyv : y ≠ v₀ := fun h => hy (h ▸ hv₀)
          have hkey : insert p ((insert y (C.erase x)).erase v₀) =
              insert y ((insert p (C.erase v₀)).erase x) :=
            swap_insert_erase_comm C x y p v₀ hyv hpx hpy
          rw [hkey] at hle
          have hxD : x ∈ insert p (C.erase v₀) :=
            Finset.mem_insert_of_mem
              (Finset.mem_erase.mpr ⟨fun h => hvx h.symm, hx⟩)
          have hyD : y ∉ insert p (C.erase v₀) := by
            intro h
            rcases Finset.mem_insert.mp h with h1 | h1
            · exact hpy h1.symm
            · exact hy (Finset.mem_of_mem_erase h1)
          have hcardD : (insert p (C.erase v₀)).card = K := by
            rw [Finset.card_insert_of_not_mem
              (fun h => hpC (Finset.mem_of_mem_erase h)),
              Finset.card_erase_of_mem hv₀]
            omega
          have hih := ih (insert p (C.erase v₀)) x y hxD hyD hcardD
          omega

theorem nu_le_cancel (l : List ℤ) (p x y : ℤ) (hx : x ≠ p) (hy : y ≠ p)
    (h : nu (p :: l) y ≤ nu (p :: l) x) : nu l y ≤ nu l x := by
  have hx' : idx? x (p :: l) = (idx? x l).map (· + 1) := by simp [idx?, hx]
  have hy' : idx? y (p :: l) = (idx? y l).map (· + 1) := by simp [idx?, hy]
  unfold nu at h ⊢
  rw [hx', hy'] at h
  cases hxi : idx? x l with
  | none => simp
  | some n =>
    cases hyi : idx? y l with
    | none =>
      rw [hxi, hyi] at h
      simp [Option.map] at h
      exact absurd h (by exact_mod_cast ENat.coe_ne_top (n + 1))
    | some m =>
      rw [hxi, hyi] at h
      simp only [Option.map] at h
      have h1 : m + 1 ≤ n + 1 := by exact_mod_cast h
      have h2 : m ≤ n := by omega
      show ((m : ℕ∞)) ≤ ((n : ℕ∞))
      exact_mod_cast h2

theorem minCost_swap_strong (K : ℕ) (r : List ℤ) :
    ∀ (C : Finset ℤ) (x y : ℤ), x ∈ C → y ∉ C → C.card = K →
      nu r y ≤ nu r x →
      minCost K r (insert y (C.erase x)) ≤ minCost K r C := by
  induction r with
  | nil =>
    intro C x y _ _ _ _
    simp [minCost_nil]
  | cons p rest ih =>
    intro C x y hx hy hcard hnu
    have hxy : x ≠ y := fun h => hy (h ▸ hx)
    have hyex : y ∉ C.erase x := fun h => hy (Finset.mem_of_mem_erase h)
    have hyC' : y ∈ insert y (C.erase x) := Finset.mem_insert_self y _
    have hcard' : (insert y (C.erase x)).card = K :=
      hcard ▸ swap_card C x y hx hy
    have hK1 : 1 ≤ K := hcard ▸ Finset.card_pos.mpr ⟨x, hx⟩
    have hCne : C.Nonempty := ⟨x, hx⟩
    have hC'ne : (insert y (C.erase x)).Nonempty := ⟨y, hyC'⟩
    have hnotlt : ¬ C.card < K := by omega
    have hnotlt' : ¬ (insert y (C.erase x)).card < K := by omega
    by_cases hpx : p = x
    · exfalso
      subst hpx
      have h0 : nu (p :: rest) p = 0 := (nu_cons_eq_zero_iff p p rest).mpr rfl
      rw [h0] at hnu
      have hy0 : nu (p :: rest) y = 0 := le_antisymm hnu (zero_le _)
      exact hxy ((nu_cons_eq_zero_iff p y rest).mp hy0).symm
    · by_cases hpC : p ∈ C
      · have hpy : p ≠ y := fun h => hy (h ▸ hpC)
        have hpC' : p ∈ insert y (C.erase x) := by
          simp [Finset.mem_insert, Finset.mem_erase, hpx, hpC, hpy]
        rw [minCost_hit K p rest C hpC, minCost_hit K p rest _ hpC']
        exact ih C x y hx hy hcard
          (nu_le_cancel rest p x y (fun h => hpx h.symm)
            (fun h => hpy h.symm) hnu)
      · by_cases hpy : p = y
        · subst hpy
          rw [minCost_hit K p rest _ hyC',
            minCost_full K p rest C hpC hnotlt hCne]
          obtain ⟨v₀, hv₀, hinf⟩ := Finset.exists_mem_eq_inf' hCne
            (fun v => minCost K rest (insert p (C.erase v)))
          rw [hinf]
          by_cases hvx : v₀ = x
          · subst hvx
            omega
          · have hxD : x ∈ insert p (C.erase v₀) :=
              Finset.mem_insert_of_mem
                (Finset.mem_erase.mpr ⟨fun h => hvx h.symm, hx⟩)
            have hv₀y : v₀ ≠ p := fun h => hpC (h ▸ hv₀)
            have hvD : v₀ ∉ insert p (C.erase v₀) := by
              intro h
              rcases Finset.mem_insert.mp h with h1 | h1
              · exact hv₀y h1
              · exact (Finset.mem_erase.mp h1).1 rfl
            have hcardD : (insert p (C.erase v₀)).card = K := by
              rw [Finset.card_insert_of_not_mem
                (fun h => hpC (Finset.mem_of_mem_erase h)),
                Finset.card_erase_of_mem hv₀]
              omega
            have hkey : insert v₀ ((insert p (C.erase v₀)).erase x) =
                insert p (C.erase x) :=
              swap_aux1 C x p v₀ hvx hv₀ (Ne.symm hpx)
            have hih := minCost_swap_weak K rest (insert p (C.erase v₀)) x v₀
              hxD hvD hcardD
            rw [hkey] at hih
            omega
        · have hpC' : p ∉ insert y (C.erase x) := by
            intro h
            rcases Finset.mem_insert.mp h with h1 | h1
            · exact hpy h1
            · exact hpC (Finset.mem_of_mem_erase h1)
          rw [minCost_full K p rest C hpC hnotlt hCne,
            minCost_full K p rest _ hpC' hnotlt' hC'ne]
          obtain ⟨v₀, hv₀, hinf⟩ := Finset.exists_mem_eq_inf' hCne
            (fun v => minCost K rest (insert p (C.erase v)))
          rw [hinf]
          by_cases hvx : v₀ = x
          · subst hvx
            have hle := Finset.inf'_le
              (fun v => minCost K rest (insert p ((insert y (C.erase v₀)).erase v)))
              hyC'
            rw [Finset.erase_insert hyex] at hle
            omega
          · have hv₀C' : v₀ ∈ insert y (C.erase x) :=
              Finset.mem_insert_of_mem (Finset.mem_erase.mpr ⟨hvx, hv₀⟩)
            have hle := Finset.inf'_le
              (fun v => minCost K rest (insert p ((insert y (C.erase x)).erase v)))
              hv₀C'
            have hyv : y ≠ v₀ := fun h => hy (h ▸ hv₀)
            have hkey : insert p ((insert y (C.erase x)).erase v₀) =
                insert y ((insert p (C.erase v₀)).erase x) :=
              swap_insert_erase_comm C x y p v₀ hyv hpx hpy
            rw [hkey] at hle
            have hxD : x ∈ insert p (C.erase v₀) :=
              Finset.mem_insert_of_mem
                (Finset.mem_erase.mpr ⟨fun h => hvx h.symm, hx⟩)
            have hyD : y ∉ insert p (C.erase v₀) := by
              intro h
              rcases Finset.mem_insert.mp h with h1 | h1
              · exact hpy h1.symm
              · exact hy (Finset.mem_of_mem_erase h1)
            have hcardD : (insert p (C.erase v₀)).card = K := by
              rw [Finset.card_insert_of_not_mem
                (fun h => hpC (Finset.mem_of_mem_erase h)),
                Finset.card_erase_of_mem hv₀]
              omega
            have hih := ih (insert p (C.erase v₀)) x y hxD hyD hcardD
              (nu_le_cancel rest p x y (fun h => hpx h.symm)
                (fun h => hpy h.symm) hnu)
            omega

/-! ### The three simulators pay at least the offline optimum (FIFO, LRU)
and `optimal` pays at most it -/

theorem fifo_minCost (K : ℕ) (pages : List ℤ) :
    ∀ frames : List ℤ, 1 ≤ K → frames.Nodup → frames.length ≤ K →
      minCost K pages frames.toFinset ≤ (fifoGo (K : ℤ) frames pages).faults := by
  induction pages with
  | nil =>
    intro frames _ _ _
    simp [minCost_nil, fifoGo]
  | cons p rest ih =>
    intro frames hK hnd hlen
    by_cases hp : p ∈ frames
    · have hpF : p ∈ frames.toFinset := List.mem_toFinset.mpr hp
      rw [minCost_hit K p rest _ hpF]
      simp only [fifoGo, if_pos hp]
      exact ih frames hK hnd hlen
    · have hpF : p ∉ frames.toFinset := fun h => hp (List.mem_toFinset.mp h)
      have hcard : frames.toFinset.card = frames.length :=
        List.toFinset_card_of_nodup hnd
      simp only [fifoGo, if_neg hp]
      by_cases hfull : (frames.length : ℤ) = (K : ℤ)
      · have hlenK : frames.length = K := by exact_mod_cast hfull
        cases frames with
        | nil =>
          exfalso
          simp at hlenK
          omega
        | cons h t =>
          have hnotlt : ¬ (h :: t).toFinset.card < K := by
            rw [hcard, hlenK]
            omega
          have hne : (h :: t).toFinset.Nonempty :=
            ⟨h, List.mem_toFinset.mpr (List.mem_cons_self h t)⟩
          rw [minCost_full K p rest _ hpF hnotlt hne]
          have hht : h ∉ t := (List.nodup_cons.mp hnd).1
          have hndt : t.Nodup := (List.nodup_cons.mp hnd).2
          have hhe : (h :: t).toFinset.erase h = t.toFinset := by
            ext z
            simp only [Finset.mem_erase, List.mem_toFinset, List.mem_cons]
            constructor
            · rintro ⟨h1, (h2 | h2)⟩
              · exact absurd h2 h1
              · exact h2
            · intro h1
              exact ⟨fun h2 => hht (h2 ▸ h1), Or.inr h1⟩
          have hstep : fifoUpdate (K : ℤ) (h :: t) p = t ++ [p] := by
            unfold fifoUpdate
            rw [if_neg hp, if_pos (by exact_mod_cast hfull)]
            rfl
          have hupF : (t ++ [p]).toFinset = insert p ((h :: t).toFinset.erase h) := by
            rw [hhe, toFinset_append_singleton]
          have hndup : (t ++ [p]).Nodup := by
            rw [List.nodup_append]
            refine ⟨hndt, List.nodup_singleton p, ?_⟩
            intro a ha hb
            rw [List.mem_singleton] at hb
            exact hp (hb ▸ List.mem_cons_of_mem h ha)
          have hlup : (t ++ [p]).length ≤ K := by
            simp only [List.length_append, List.length_singleton]
            have : (h :: t).length = K := hlenK
            simp only [List.length_cons] at this
            omega
          have hih := ih (t ++ [p]) hK hndup hlup
          rw [hupF] at hih
          have hmem : h ∈ (h :: t).toFinset :=
            List.mem_toFinset.mpr (List.mem_cons_self h t)
          have hle := Finset.inf'_le
            (fun v => minCost K rest (insert p ((h :: t).toFinset.erase v)))
            hmem
          rw [hstep]
          have hfin : 1 + ((h :: t).toFinset.inf' hne fun v =>
              minCost K rest (insert p ((h :: t).toFinset.erase v)))
              ≤ (fifoGo (K : ℤ) (t ++ [p]) rest).faults + 1 := by omega
          exact hfin
      · have hlt : frames.toFinset.card < K := by
          rw [hcard]
          omega
        rw [minCost_notfull K p rest _ hpF hlt]
        have hstep : fifoUpdate (K : ℤ) frames p = frames ++ [p] := by
          unfold fifoUpdate
          rw [if_neg hp, if_neg hfull]
        have hupF : (frames ++ [p]).toFinset = insert p frames.toFinset :=
          toFinset_append_singleton frames p
        have hndup : (frames ++ [p]).Nodup := by
          rw [List.nodup_append]
          refine ⟨hnd, List.nodup_singleton p, ?_⟩
          intro a ha hb
          rw [List.mem_singleton] at hb
          exact hp (hb ▸ ha)
        have hlup : (frames ++ [p]).length ≤ K := by
          simp only [List.length_append, List.length_singleton]
          omega
        have hih := ih (frames ++ [p]) hK hndup hlup
        rw [hupF] at hih
        rw [hstep]
        have hfin : 1 + minCost K rest (insert p frames.toFinset)
            ≤ (fifoGo (K : ℤ) (frames ++ [p]) rest).faults + 1 := by omega
        exact hfin

theorem lru_minCost (K : ℕ) (pages : List ℤ) :
    ∀ stack : List ℤ, 1 ≤ K → stack.Nodup → stack.length ≤ K →
      minCost K pages stack.toFinset ≤ (lruGo (K : ℤ) stack pages).1 := by
  induction pages with
  | nil =>
    intro stack _ _ _
    simp [minCost_nil, lruGo]
  | cons p rest ih =>
    intro stack hK hnd hlen
    by_cases hp : p ∈ stack
    · have hpF : p ∈ stack.toFinset := List.mem_toFinset.mpr hp
      rw [minCost_hit K p rest _ hpF]
      simp only [lruGo, if_pos hp]
      have hstep : lruUpdate (K : ℤ) stack p = stack.erase p ++ [p] := by
        unfold lruUpdate
        rw [if_pos hp]
      have hndup : (stack.erase p ++ [p]).Nodup := by
        rw [List.nodup_append]
        refine ⟨hnd.erase p, List.nodup_singleton p, ?_⟩
        intro a ha hb
        rw [List.mem_singleton] at hb
        subst hb
        exact (hnd.mem_erase_iff.mp ha).1 rfl
      have hlup : (stack.erase p ++ [p]).length ≤ K := by
        simp only [List.length_append, List.length_singleton]
        rw [List.length_erase_of_mem hp]
        omega
      have hupF : (stack.erase p ++ [p]).toFinset = stack.toFinset := by
        rw [toFinset_append_singleton, toFinset_erase_of_nodup _ _ hnd]
        exact Finset.insert_erase hpF
      have hih := ih (stack.erase p ++ [p]) hK hndup hlup
      rw [hupF] at hih
      rw [hstep]
      exact hih
    · have hpF : p ∉ stack.toFinset := fun h => hp (List.mem_toFinset.mp h)
      have hcard : stack.toFinset.card = stack.length :=
        List.toFinset_card_of_nodup hnd
      simp only [lruGo, if_neg hp]
      by_cases hfull : (stack.length : ℤ) = (K : ℤ)
      · have hlenK : stack.length = K := by exact_mod_cast hfull
        cases stack with
        | nil =>
          exfalso
          simp at hlenK
          omega
        | cons h t =>
          have hnotlt : ¬ (h :: t).toFinset.card < K := by
            rw [hcard, hlenK]
            omega
          have hne : (h :: t).toFinset.Nonempty :=
            ⟨h, List.mem_toFinset.mpr (List.mem_cons_self h t)⟩
          rw [minCost_full K p rest _ hpF hnotlt hne]
          have hht : h ∉ t := (List.nodup_cons.mp hnd).1
          have hndt : t.Nodup := (List.nodup_cons.mp hnd).2
          have hhe : (h :: t).toFinset.erase h = t.toFinset := by
            ext z
            simp only [Finset.mem_erase, List.mem_toFinset, List.mem_cons]
            constructor
            · rintro ⟨h1, (h2 | h2)⟩
              · exact absurd h2 h1
              · exact h2
            · intro h1
              exact ⟨fun h2 => hht (h2 ▸ h1), Or.inr h1⟩
          have hstep : lruUpdate (K : ℤ) (h :: t) p = t ++ [p] := by
            unfold lruUpdate
            rw [if_neg hp, if_pos (by exact_mod_cast hfull)]
            rfl
          have hupF : (t ++ [p]).toFinset = insert p ((h :: t).toFinset.erase h) := by
            rw [hhe, toFinset_append_singleton]
          have hndup : (t ++ [p]).Nodup := by
            rw [List.nodup_append]
            refine ⟨hndt, List.nodup_singleton p, ?_⟩
            intro a ha hb
            rw [List.mem_singleton] at hb
            exact hp (hb ▸ List.mem_cons_of_mem h ha)
          have hlup : (t ++ [p]).length ≤ K := by
            simp only [List.length_append, List.length_singleton]
            have : (h :: t).length = K := hlenK
            simp only [List.length_cons] at this
            omega
          have hih := ih (t ++ [p]) hK hndup hlup
          rw [hupF] at hih
          have hmem : h ∈ (h :: t).toFinset :=
            List.mem_toFinset.mpr (List.mem_cons_self h t)
          have hle := Finset.inf'_le
            (fun v => minCost K rest (insert p ((h :: t).toFinset.erase v)))
            hmem
          rw [hstep]
          have hfin : 1 + ((h :: t).toFinset.inf' hne fun v =>
              minCost K rest (insert p ((h :: t).toFinset.erase v)))
              ≤ (lruGo (K : ℤ) (t ++ [p]) rest).1 + 1 := by omega
          exact hfin
      · have hlt : stack.toFinset.card < K := by
          rw [hcard]
          omega
        rw [minCost_notfull K p rest _ hpF hlt]
        have hstep : lruUpdate (K : ℤ) stack p = stack ++ [p] := by
          unfold lruUpdate
          rw [if_neg hp, if_neg hfull]
        have hupF : (stack ++ [p]).toFinset = insert p stack.toFinset :=
          toFinset_append_singleton stack p
        have hndup : (stack ++ [p]).Nodup := by
          rw [List.nodup_append]
          refine ⟨hnd, List.nodup_singleton p, ?_⟩
          intro a ha hb
          rw [List.mem_singleton] at hb
          exact hp (hb ▸ ha)
        have hlup : (stack ++ [p]).length ≤ K := by
          simp only [List.length_append, List.length_singleton]
          omega
        have hih := ih (stack ++ [p]) hK hndup hlup
        rw [hupF] at hih
        rw [hstep]
        have hfin : 1 + minCost K rest (insert p stack.toFinset)
            ≤ (lruGo (K : ℤ) (stack ++ [p]) rest).1 + 1 := by omega
        exact hfin

theorem optimal_minCost (K : ℕ) (pages : List ℤ) :
    ∀ frames : List ℤ, 1 ≤ K → frames.Nodup → frames.length ≤ K →
      ∃ res, optimalGo (K : ℤ) frames pages = .ok res ∧
        res.faults ≤ minCost K pages frames.toFinset := by
  induction pages with
  | nil =>
    intro frames _ _ _
    exact ⟨⟨0, 0, [], []⟩, rfl, by simp [minCost_nil]⟩
  | cons p future ih =>
    intro frames hK hnd hlen
    by_cases hp : p ∈ frames
    · obtain ⟨res, hres, hb⟩ := ih frames hK hnd hlen
      refine ⟨⟨res.faults, res.hits + 1,
        record_state frames (K : ℤ) :: res.states, "Hit" :: res.results⟩,
        ?_, ?_⟩
      · simp only [optimalGo, if_pos hp, hres]
        rfl
      · rw [minCost_hit K p future _ (List.mem_toFinset.mpr hp)]
        exact hb
    · have hpF : p ∉ frames.toFinset := fun h => hp (List.mem_toFinset.mp h)
      have hcard : frames.toFinset.card = frames.length :=
        List.toFinset_card_of_nodup hnd
      by_cases hlt : (frames.length : ℤ) < (K : ℤ)
      · have hndup : (frames ++ [p]).Nodup := by
          rw [List.nodup_append]
          refine ⟨hnd, List.nodup_singleton p, ?_⟩
          intro a ha hb2
          rw [List.mem_singleton] at hb2
          exact hp (hb2 ▸ ha)
        have hlup : (frames ++ [p]).length ≤ K := by
          simp only [List.length_append, List.length_singleton]
          have : frames.length < K := by exact_mod_cast hlt
          omega
        obtain ⟨res, hres, hb⟩ := ih (frames ++ [p]) hK hndup hlup
        refine ⟨⟨res.faults + 1, res.hits,
          record_state (frames ++ [p]) (K : ℤ) :: res.states,
          "Fault" :: res.results⟩, ?_, ?_⟩
        · simp only [optimalGo, if_neg hp, if_pos hlt, hres]
          rfl
        · rw [minCost_notfull K p future _ hpF (by rw [hcard]; exact_mod_cast hlt)]
          rw [toFinset_append_singleton] at hb
          show res.faults + 1 ≤ 1 + minCost K future (insert p frames.toFinset)
          omega
      · have hlenK : frames.length = K := by
          have : ¬ frames.length < K := fun h => hlt (by exact_mod_cast h)
          omega
        have hfne : frames ≠ [] := by
          intro h
          rw [h] at hlenK
          simp at hlenK
          omega
        obtain ⟨b, hbscan, hbmem, hbmax⟩ := victimScan_max future frames hfne
        have hbF : b ∈ frames.toFinset := List.mem_toFinset.mpr hbmem
        have hndup : (frames.erase b ++ [p]).Nodup := by
          rw [List.nodup_append]
          refine ⟨hnd.erase b, List.nodup_singleton p, ?_⟩
          intro a ha hb2
          rw [List.mem_singleton] at hb2
          subst hb2
          exact hp (List.mem_of_mem_erase ha)
        have hlup : (frames.erase b ++ [p]).length ≤ K := by
          simp only [List.length_append, List.length_singleton]
          rw [List.length_erase_of_mem hbmem]
          omega
        obtain ⟨res, hres, hb⟩ := ih (frames.erase b ++ [p]) hK hndup hlup
        have hupF : (frames.erase b ++ [p]).toFinset =
            insert p (frames.toFinset.erase b) := by
          rw [toFinset_append_singleton, toFinset_erase_of_nodup _ _ hnd]
        rw [hupF] at hb
        refine ⟨⟨res.faults + 1, res.hits,
          record_state (frames.erase b ++ [p]) (K : ℤ) :: res.states,
          "Fault" :: res.results⟩, ?_, ?_⟩
        · simp only [optimalGo, if_neg hp, if_neg hlt, hbscan, if_pos hbmem, hres]
          rfl
        · have hnotlt : ¬ frames.toFinset.card < K := by
            rw [hcard]
            omega
          have hne : frames.toFinset.Nonempty := ⟨b, hbF⟩
          rw [minCost_full K p future _ hpF hnotlt hne]
          have hall : ∀ v ∈ frames.toFinset, res.faults ≤
              minCost K future (insert p (frames.toFinset.erase v)) := by
            intro v hv
            by_cases hvb : v = b
            · subst hvb
              exact hb
            · have hvfr : v ∈ frames := List.mem_toFinset.mp hv
              have hpv : p ≠ v := fun h => hp (h ▸ hvfr)
              have hpb : p ≠ b := fun h => hp (h ▸ hbmem)
              have hbv : b ≠ v := fun h => hvb (h.symm)
              have hkey : insert v ((insert p (frames.toFinset.erase v)).erase b)
                  = insert p (frames.toFinset.erase b) :=
                erase_insert_erase frames.toFinset p b v hv hbv hpb
              have hbC : b ∈ insert p (frames.toFinset.erase v) :=
                Finset.mem_insert_of_mem (Finset.mem_erase.mpr ⟨hbv, hbF⟩)
              have hvC : v ∉ insert p (frames.toFinset.erase v) := by
                intro h
                rcases Finset.mem_insert.mp h with h1 | h1
                · exact hpv h1.symm
                · exact (Finset.mem_erase.mp h1).1 rfl
              have hcardC : (insert p (frames.toFinset.erase v)).card = K := by
                rw [Finset.card_insert_of_not_mem
                  (fun h => hpF (Finset.mem_of_mem_erase h)),
                  Finset.card_erase_of_mem hv]
                omega
              have hsw := minCost_swap_strong K future
                (insert p (frames.toFinset.erase v)) b v hbC hvC hcardC
                (hbmax v hvfr)
              rw [hkey] at hsw
              exact le_trans hb hsw
          have hinf := Finset.le_inf' hne
            (fun v => minCost K future (insert p (frames.toFinset.erase v)))
            hall
          show res.faults + 1 ≤ 1 + frames.toFinset.inf' hne
            fun v => minCost K future (insert p (frames.toFinset.erase v))
          omega

theorem fifoGo_states_eq_trace (K : ℤ) (pages : List ℤ) :
    ∀ frames : List ℤ,
      (fifoGo K frames pages).states =
        (framesTrace (fifoUpdate K) frames pages).map
          (fun g => record_state g K) := by
  induction pages with
  | nil => intro frames; rfl
  | cons p rest ih =>
    intro frames
    by_cases hp : p ∈ frames
    · have hupd : fifoUpdate K frames p = frames := by
        unfold fifoUpdate
        rw [if_pos hp]
      simp only [fifoGo, if_pos hp, framesTrace, List.map_cons, hupd]
      rw [ih frames]
    · simp only [fifoGo, if_neg hp, framesTrace, List.map_cons]
      rw [ih (fifoUpdate K frames p)]

theorem lruGo_states_eq_trace (K : ℤ) (pages : List ℤ) :
    ∀ stack : List ℤ,
      (lruGo K stack pages).2.1 =
        (framesTrace (lruUpdate K) stack pages).map
          (fun g => record_state g K) := by
  induction pages with
  | nil => intro stack; rfl
  | cons p rest ih =>
    intro stack
    by_cases hp : p ∈ stack
    · simp only [lruGo, if_pos hp, framesTrace, List.map_cons]
      rw [ih (lruUpdate K stack p)]
    · simp only [lruGo, if_neg hp, framesTrace, List.map_cons]
      rw [ih (lruUpdate K stack p)]

theorem fifoUpdate_nodup (K : ℕ) (frames : List ℤ) (p : ℤ) (hK : 1 ≤ K)
    (hnd : frames.Nodup) (hlen : frames.length ≤ K) :
    (fifoUpdate (K : ℤ) frames p).Nodup ∧
      (fifoUpdate (K : ℤ) frames p).length ≤ K ∧
      p ∈ fifoUpdate (K : ℤ) frames p := by
  unfold fifoUpdate
  by_cases hp : p ∈ frames
  · rw [if_pos hp]
    exact ⟨hnd, hlen, hp⟩
  · rw [if_neg hp]
    by_cases hfull : (frames.length : ℤ) = (K : ℤ)
    · rw [if_pos hfull]
      have hd : (frames.drop 1).Nodup := hnd.sublist (List.drop_sublist 1 frames)
      have hpd : p ∉ frames.drop 1 :=
        fun h => hp (List.mem_of_mem_drop h)
      refine ⟨?_, ?_, List.mem_append_right _ (List.mem_singleton_self p)⟩
      · rw [List.nodup_append]
        refine ⟨hd, List.nodup_singleton p, ?_⟩
        intro a ha hb
        rw [List.mem_singleton] at hb
        exact hpd (hb ▸ ha)
      · simp only [List.length_append, List.length_singleton, List.length_drop]
        have : frames.length = K := by exact_mod_cast hfull
        omega
    · rw [if_neg hfull]
      refine ⟨?_, ?_, List.mem_append_right _ (List.mem_singleton_self p)⟩
      · rw [List.nodup_append]
        refine ⟨hnd, List.nodup_singleton p, ?_⟩
        intro a ha hb
        rw [List.mem_singleton] at hb
        exact hp (hb ▸ ha)
      · simp only [List.length_append, List.length_singleton]
        have : (frames.length : ℤ) ≠ (K : ℤ) := hfull
        have : frames.length ≠ K := fun h => this (by exact_mod_cast h)
        omega

theorem lruUpdate_nodup (K : ℕ) (stack : List ℤ) (p : ℤ) (hK : 1 ≤ K)
    (hnd : stack.Nodup) (hlen : stack.length ≤ K) :
    (lruUpdate (K : ℤ) stack p).Nodup ∧
      (lruUpdate (K : ℤ) stack p).length ≤ K ∧
      p ∈ lruUpdate (K : ℤ) stack p := by
  unfold lruUpdate
  by_cases hp : p ∈ stack
  · rw [if_pos hp]
    refine ⟨?_, ?_, List.mem_append_right _ (List.mem_singleton_self p)⟩
    · rw [List.nodup_append]
      refine ⟨hnd.erase p, List.nodup_singleton p, ?_⟩
      intro a ha hb
      rw [List.mem_singleton] at hb
      subst hb
      exact (hnd.mem_erase_iff.mp ha).1 rfl
    · simp only [List.length_append, List.length_singleton]
      rw [List.length_erase_of_mem hp]
      omega
  · rw [if_neg hp]
    by_cases hfull : (stack.length : ℤ) = (K : ℤ)
    · rw [if_pos hfull]
      have hd : (stack.drop 1).Nodup := hnd.sublist (List.drop_sublist 1 stack)
      have hpd : p ∉ stack.drop 1 :=
        fun h => hp (List.mem_of_mem_drop h)
      refine ⟨?_, ?_, List.mem_append_right _ (List.mem_singleton_self p)⟩
      · rw [List.nodup_append]
        refine ⟨hd, List.nodup_singleton p, ?_⟩
        intro a ha hb
        rw [List.mem_singleton] at hb
        exact hpd (hb ▸ ha)
      · simp only [List.length_append, List.length_singleton, List.length_drop]
        have : stack.length = K := by exact_mod_cast hfull
        omega
    · rw [if_neg hfull]
      refine ⟨?_, ?_, List.mem_append_right _ (List.mem_singleton_self p)⟩
      · rw [List.nodup_append]
        refine ⟨hnd, List.nodup_singleton p, ?_⟩
        intro a ha hb
        rw [List.mem_singleton] at hb
        exact hp (hb ▸ ha)
      · simp only [List.length_append, List.length_singleton]
        have : (stack.length : ℤ) ≠ (K : ℤ) := hfull
        have : stack.length ≠ K := fun h => this (by exact_mod_cast h)
        omega

theorem framesTrace_inv (K : ℕ) (upd : List ℤ → ℤ → List ℤ)
    (hupd : ∀ fr p, fr.Nodup → fr.length ≤ K →
      (upd fr p).Nodup ∧ (upd fr p).length ≤ K) (pages : List ℤ) :
    ∀ frames : List ℤ, frames.Nodup → frames.length ≤ K →
      ∀ g ∈ framesTrace upd frames pages, g.Nodup ∧ g.length ≤ K := by
  induction pages with
  | nil =>
    intro frames _ _ g hg
    simp [framesTrace] at hg
  | cons p rest ih =>
    intro frames hnd hlen g hg
    obtain ⟨hnd', hlen'⟩ := hupd frames p hnd hlen
    simp only [framesTrace, List.mem_cons] at hg
    rcases hg with rfl | hg
    · exact ⟨hnd', hlen'⟩
    · exact ih (upd frames p) hnd' hlen' g hg

theorem framesTrace_getElem (upd : List ℤ → ℤ → List ℤ)
    (hupd : ∀ fr p, p ∈ upd fr p) (pages : List ℤ) :
    ∀ (frames : List ℤ) (i : ℕ) (p : ℤ), pages[i]? = some p →
      ∃ g, (framesTrace upd frames pages)[i]? = some g ∧ p ∈ g := by
  induction pages with
  | nil =>
    intro frames i p hp
    simp at hp
  | cons q rest ih =>
    intro frames i p hp
    cases i with
    | zero =>
      rw [List.getElem?_cons_zero] at hp
      have : q = p := by injection hp
      subst this
      exact ⟨upd frames q, by simp [framesTrace], hupd frames q⟩
    | succ i =>
      rw [List.getElem?_cons_succ] at hp
      obtain ⟨g, hg, hmem⟩ := ih (upd frames q) i p hp
      exact ⟨g, by simpa [framesTrace] using hg, hmem⟩

theorem fifoGo_counts (K : ℤ) (pages : List ℤ) :
    ∀ frames : List ℤ,
      (fifoGo K frames pages).faults + (fifoGo K frames pages).hits =
        pages.length ∧
      (fifoGo K frames pages).results.length = pages.length ∧
      (fifoGo K frames pages).states.length = pages.length := by
  induction pages with
  | nil => intro frames; simp [fifoGo]
  | cons p rest ih =>
    intro frames
    by_cases hp : p ∈ frames
    · obtain ⟨h1, h2, h3⟩ := ih frames
      simp only [fifoGo, if_pos hp, List.length_cons]
      refine ⟨by omega, by simp [h2], by simp [h3]⟩
    · obtain ⟨h1, h2, h3⟩ := ih (fifoUpdate K frames p)
      simp only [fifoGo, if_neg hp, List.length_cons]
      refine ⟨by omega, by simp [h2], by simp [h3]⟩

theorem lruGo_counts (K : ℤ) (pages : List ℤ) :
    ∀ stack : List ℤ,
      (lruGo K stack pages).1 ≤ pages.length ∧
      (lruGo K stack pages).2.2.length = pages.length ∧
      (lruGo K stack pages).2.1.length = pages.length := by
  induction pages with
  | nil => intro stack; simp [lruGo]
  | cons p rest ih =>
    intro stack
    obtain ⟨h1, h2, h3⟩ := ih (lruUpdate K stack p)
    by_cases hp : p ∈ stack
    · simp only [lruGo, if_pos hp, List.length_cons]
      refine ⟨by omega, by simp [h2], by simp [h3]⟩
    · simp only [lruGo, if_neg hp, List.length_cons]
      refine ⟨by omega, by simp [h2], by simp [h3]⟩

theorem optimalGo_main (K : ℕ) (pages : List ℤ) :
    ∀ frames : List ℤ, 1 ≤ K → frames.Nodup → frames.length ≤ K →
      ∃ res, optimalGo (K : ℤ) frames pages = .ok res ∧
        res.faults + res.hits = pages.length ∧
        res.results.length = pages.length ∧
        res.states.length = pages.length ∧
        (∀ s ∈ res.states, ∃ g : List ℤ,
          s = record_state g (K : ℤ) ∧ g.Nodup ∧ g.length ≤ K) ∧
        (∀ (i : ℕ) (p : ℤ) (s : List (Option ℤ)),
          pages[i]? = some p → res.states[i]? = some s →
          some p ∈ s) := by
  induction pages with
  | nil =>
    intro frames _ _ _
    refine ⟨⟨0, 0, [], []⟩, rfl, rfl, rfl, rfl, ?_, ?_⟩
    · intro s hs
      simp at hs
    · intro i p s hp _
      simp at hp
  | cons p future ih =>
    intro frames hK hnd hlen
    by_cases hp : p ∈ frames
    · obtain ⟨res, hres, hc, hr, hs, hshape, hmem⟩ := ih frames hK hnd hlen
      refine ⟨⟨res.faults, res.hits + 1,
        record_state frames (K : ℤ) :: res.states, "Hit" :: res.results⟩,
        ?_, ?_, ?_, ?_, ?_, ?_⟩
      · simp only [optimalGo, if_pos hp, hres]
        rfl
      · simp only [List.length_cons]
        omega
      · simp [hr]
      · simp [hs]
      · intro s hmem'
        rcases List.mem_cons.mp hmem' with rfl | h1
        · exact ⟨frames, rfl, hnd, hlen⟩
        · exact hshape s h1
      · intro i q s hq hsq
        cases i with
        | zero =>
          rw [List.getElem?_cons_zero] at hq hsq
          have hq' : p = q := by injection hq
          have hs' : record_state frames (K : ℤ) = s := by injection hsq
          subst hq'
          subst hs'
          exact mem_record_state frames _ p hp
        | succ i =>
          rw [List.getElem?_cons_succ] at hq hsq
          exact hmem i q s hq hsq
    · by_cases hlt : (frames.length : ℤ) < (K : ℤ)
      · have hndup : (frames ++ [p]).Nodup := by
          rw [List.nodup_append]
          refine ⟨hnd, List.nodup_singleton p, ?_⟩
          intro a ha hb2
          rw [List.mem_singleton] at hb2
          exact hp (hb2 ▸ ha)
        have hlup : (frames ++ [p]).length ≤ K := by
          simp only [List.length_append, List.length_singleton]
          have : frames.length < K := by exact_mod_cast hlt
          omega
        obtain ⟨res, hres, hc, hr, hs, hshape, hmem⟩ :=
          ih (frames ++ [p]) hK hndup hlup
        refine ⟨⟨res.faults + 1, res.hits,
          record_state (frames ++ [p]) (K : ℤ) :: res.states,
          "Fault" :: res.results⟩, ?_, ?_, ?_, ?_, ?_, ?_⟩
        · simp only [optimalGo, if_neg hp, if_pos hlt, hres]
          rfl
        · simp only [List.length_cons]
          omega
        · simp [hr]
        · simp [hs]
        · intro s hmem'
          rcases List.mem_cons.mp hmem' with rfl | h1
          · exact ⟨frames ++ [p], rfl, hndup, hlup⟩
          · exact hshape s h1
        · intro i q s hq hsq
          cases i with
          | zero =>
            rw [List.getElem?_cons_zero] at hq hsq
            have hq' : p = q := by injection hq
            have hs' : record_state (frames ++ [p]) (K : ℤ) = s := by
              injection hsq
            subst hq'
            subst hs'
            exact mem_record_state _ _ p
              (List.mem_append_right _ (List.mem_singleton_self p))
          | succ i =>
            rw [List.getElem?_cons_succ] at hq hsq
            exact hmem i q s hq hsq
      · have hlenK : frames.length = K := by
          have : ¬ frames.length < K := fun h => hlt (by exact_mod_cast h)
          omega
        have hfne : frames ≠ [] := by
          intro h
          rw [h] at hlenK
          simp at hlenK
          omega
        obtain ⟨b, hbscan, hbmem, _⟩ := victimScan_max future frames hfne
        have hndup : (frames.erase b ++ [p]).Nodup := by
          rw [List.nodup_append]
          refine ⟨hnd.erase b, List.nodup_singleton p, ?_⟩
          intro a ha hb2
          rw [List.mem_singleton] at hb2
          subst hb2
          exact hp (List.mem_of_mem_erase ha)
        have hlup : (frames.erase b ++ [p]).length ≤ K := by
          simp only [List.length_append, List.length_singleton]
          rw [List.length_erase_of_mem hbmem]
          omega
        obtain ⟨res, hres, hc, hr, hs, hshape, hmem⟩ :=
          ih (frames.erase b ++ [p]) hK hndup hlup
        refine ⟨⟨res.faults + 1, res.hits,
          record_state (frames.erase b ++ [p]) (K : ℤ) :: res.states,
          "Fault" :: res.results⟩, ?_, ?_, ?_, ?_, ?_, ?_⟩
        · simp only [optimalGo, if_neg hp, if_neg hlt, hbscan, if_pos hbmem,
            hres]
          rfl
        · simp only [List.length_cons]
          omega
        · simp [hr]
        · simp [hs]
        · intro s hmem'
          rcases List.mem_cons.mp hmem' with rfl | h1
          · exact ⟨frames.erase b ++ [p], rfl, hndup, hlup⟩
          · exact hshape s h1
        · intro i q s hq hsq
          cases i with
          | zero =>
            rw [List.getElem?_cons_zero] at hq hsq
            have hq' : p = q := by injection hq
            have hs' : record_state (frames.erase b ++ [p]) (K : ℤ) = s := by
              injection hsq
            subst hq'
            subst hs'
            exact mem_record_state _ _ p
              (List.mem_append_right _ (List.mem_singleton_self p))
          | succ i =>
            rw [List.getElem?_cons_succ] at hq hsq
            exact hmem i q s hq hsq

theorem bind_ok_eq {α β : Type} (a : α) (f : α → Except String β) :
    (do let r ← Except.ok a; f r) = f a := rfl

theorem bind_error_eq {α β : Type} (s : String) (f : α → Except String β) :
    (do let r ← (Except.error s : Except String α); f r) = Except.error s := rfl

theorem optimalGo_error_string (K : ℤ) (pages : List ℤ) :
    ∀ (frames : List ℤ) (s : String),
      optimalGo K frames pages = .error s → s = "ValueError" := by
  induction pages with
  | nil =>
    intro frames s h
    simp [optimalGo] at h
  | cons p future ih =>
    intro frames s h
    by_cases hp : p ∈ frames
    · cases hrec : optimalGo K frames future with
      | ok r =>
        simp [optimalGo, if_pos hp, hrec, bind_ok_eq] at h
      | error s' =>
        simp [optimalGo, if_pos hp, hrec, bind_error_eq] at h
        exact h ▸ ih frames s' hrec
    · by_cases hlt : (frames.length : ℤ) < K
      · cases hrec : optimalGo K (frames ++ [p]) future with
        | ok r =>
          simp [optimalGo, if_neg hp, if_pos hlt, hrec, bind_ok_eq] at h
        | error s' =>
          simp [optimalGo, if_neg hp, if_pos hlt, hrec, bind_error_eq] at h
          exact h ▸ ih (frames ++ [p]) s' hrec
      · cases hscan : victimScan future frames none (-1) with
        | none =>
          simp [optimalGo, if_neg hp, if_neg hlt, hscan] at h
          exact h.symm
        | some v =>
          by_cases hv : v ∈ frames
          · cases hrec : optimalGo K (frames.erase v ++ [p]) future with
            | ok r =>
              simp [optimalGo, if_neg hp, if_neg hlt, hscan, if_pos hv, hrec,
                bind_ok_eq] at h
            | error s' =>
              simp [optimalGo, if_neg hp, if_neg hlt, hscan, if_pos hv, hrec,
                bind_error_eq] at h
              exact h ▸ ih (frames.erase v ++ [p]) s' hrec
          · simp [optimalGo, if_neg hp, if_neg hlt, hscan, if_neg hv] at h
            exact h.symm

theorem record_state_eq (g : List ℤ) (K : ℕ) (h : g.length ≤ K) :
    record_state g (K : ℤ) =
      g.map some ++ List.replicate (K - g.length) none := by
  unfold record_state
  congr 2
  omega

theorem erase_split (stack : List ℤ) (p : ℤ) (hp : p ∈ stack) :
    ∃ l₁ l₂, stack = l₁ ++ p :: l₂ ∧ p ∉ l₁ ∧
      stack.erase p = l₁ ++ l₂ := by
  obtain ⟨l₁, g₀, l₂, heq, hP0, hnone⟩ :=
    exists_first_split (fun g => g = p) stack ⟨p, hp, rfl⟩
  subst hP0
  refine ⟨l₁, l₂, heq, fun h => hnone g₀ h rfl, ?_⟩
  rw [heq, List.erase_append_right (g₀ :: l₂) (fun h => hnone g₀ h rfl),
    List.erase_cons_head]

theorem optimalGo_fault_full_step (K : ℤ) (frames : List ℤ) (p b : ℤ)
    (future : List ℤ) (hp : p ∉ frames) (hnlt : ¬ (frames.length : ℤ) < K)
    (hscan : victimScan future frames none (-1) = some b) (hb : b ∈ frames) :
    optimalGo K frames (p :: future) =
      Except.map (fun r => ⟨r.faults + 1, r.hits,
        record_state (frames.erase b ++ [p]) K :: r.states,
        "Fault" :: r.results⟩) (optimalGo K (frames.erase b ++ [p]) future) := by
  cases hrec : optimalGo K (frames.erase b ++ [p]) future with
  | ok r =>
    simp [optimalGo, if_neg hp, if_neg hnlt, hscan, if_pos hb, hrec,
      bind_ok_eq, Except.map]
  | error s =>
    simp [optimalGo, if_neg hp, if_neg hnlt, hscan, if_pos hb, hrec,
      bind_error_eq, Except.map]

/-- Claim C1: Whenever `optimal` faults with all `K` frames occupied, the
victim is computed by `victimScan` over the remaining suffix and the
faulting step replaces it; the victim is the first resident page with no
future occurrence when one exists (unconditional short circuit), and
otherwise the first resident page in frame order whose next occurrence is
strictly farther than every earlier resident page's and at least as far
as every later resident page's. -/
theorem optimal_victim_selection (K : ℕ) (frames : List ℤ) (p : ℤ)
    (future : List ℤ) (hK : 1 ≤ K) (hnd : frames.Nodup) (hp : p ∉ frames)
    (hfull : frames.length = K) :
    ∃ b, victimScan future frames none (-1) = some b ∧
      optimalGo (K : ℤ) frames (p :: future) =
        Except.map (fun r => ⟨r.faults + 1, r.hits,
          record_state (frames.erase b ++ [p]) (K : ℤ) :: r.states,
          "Fault" :: r.results⟩)
          (optimalGo (K : ℤ) (frames.erase b ++ [p]) future) ∧
      ((idx? b future = none ∧ ∃ l₁ l₂, frames = l₁ ++ b :: l₂ ∧
          ∀ g ∈ l₁, idx? g future ≠ none) ∨
       ((∀ g ∈ frames, idx? g future ≠ none) ∧
        ∃ l₁ l₂ nb, frames = l₁ ++ b :: l₂ ∧ idx? b future = some nb ∧
          (∀ g ∈ l₁, ∀ m, idx? g future = some m → m < nb) ∧
          (∀ g ∈ l₂, ∀ m, idx? g future = some m → m ≤ nb))) := by
  have hnlt : ¬ (frames.length : ℤ) < (K : ℤ) := by
    rw [hfull]
    omega
  by_cases hnone : ∃ g ∈ frames, idx? g future = none
  · obtain ⟨l₁, g₀, l₂, heq, hP, hpre⟩ :=
      exists_first_split (fun g => idx? g future = none) frames hnone
    have hscan : victimScan future frames none (-1) = some g₀ := by
      rw [heq]
      exact victimScan_first_none future l₁ g₀ l₂ none (-1) hpre hP
    have hbmem : g₀ ∈ frames := by
      rw [heq]
      exact List.mem_append_right l₁ (List.mem_cons_self g₀ l₂)
    exact ⟨g₀, hscan,
      optimalGo_fault_full_step (K : ℤ) frames p g₀ future hp hnlt hscan hbmem,
      Or.inl ⟨hP, l₁, l₂, heq, hpre⟩⟩
  · push_neg at hnone
    cases hfr : frames with
    | nil =>
      exfalso
      rw [hfr] at hfull
      simp at hfull
      omega
    | cons f fs =>
      subst hfr
      have hallsome : ∀ g ∈ f :: fs, idx? g future ≠ none := hnone
      cases hf : idx? f future with
      | none => exact absurd hf (hallsome f (List.mem_cons_self f fs))
      | some m =>
        have hstep : victimScan future (f :: fs) none (-1) =
            victimScan future fs (some f) (m : ℤ) := by
          have hm : ((m : ℤ) > -1) := by omega
          simp [victimScan, hf, hm]
        obtain ⟨b, hb, hcase⟩ := victimScan_go_firstmax future fs f m hf
          (fun g hg => hallsome g (List.mem_cons_of_mem f hg))
        have hscan : victimScan future (f :: fs) none (-1) = some b :=
          hstep ▸ hb
        have hbmem : b ∈ f :: fs := by
          rcases hcase with ⟨h1, _⟩ | ⟨l₁, l₂, nb, heq, _, _, _, _⟩
          · rw [h1]
            exact List.mem_cons_self _ _
          · rw [heq]
            simp
        refine ⟨b, hscan,
          optimalGo_fault_full_step (K : ℤ) (f :: fs) p b future hp hnlt
            hscan hbmem, Or.inr ⟨hallsome, ?_⟩⟩
        rcases hcase with ⟨rfl, hbound⟩ | ⟨l₁, l₂, nb, heq, hbidx, hlt, hpre, hpost⟩
        · exact ⟨[], fs, m, rfl, hf, by simp, hbound⟩
        · refine ⟨f :: l₁, l₂, nb, by rw [heq]; simp, hbidx, ?_, hpost⟩
          intro g hg m' hm'
          rcases List.mem_cons.mp hg with h1 | h1
          · subst h1
            rw [hf] at hm'
            have : m' = m := (Option.some.inj hm').symm
            omega
          · exact hpre g h1 m' hm'

/-- Claim C2: For every reference string and capacity `K ≥ 1`, the fault
count of `optimal` is at most the fault counts of `fifo` and of `lru` on
the same input. -/
theorem optimal_fault_lower_bound (pages : List ℤ) (K : ℕ) (hK : 1 ≤ K) :
    ∃ n, Except.map SimResult.faults (optimal pages (K : ℤ)) = .ok n ∧
      n ≤ (fifo pages (K : ℤ)).faults ∧ n ≤ (lru pages (K : ℤ)).faults := by
  obtain ⟨res, hres, hbound⟩ := optimal_minCost K pages [] hK List.nodup_nil
    (by simp)
  have hf := fifo_minCost K pages [] hK List.nodup_nil (by simp)
  have hl := lru_minCost K pages [] hK List.nodup_nil (by simp)
  refine ⟨res.faults, ?_, le_trans hbound hf, le_trans hbound hl⟩
  unfold optimal
  rw [hres]
  rfl

/-- Claim C4: For every policy, non-empty reference string of length `N` and
capacity `K ≥ 1`: `faultCount + hitCount = N` and the outcome log and the
state trace each have length `N`. -/
theorem counts_sum_and_lengths (pages : List ℤ) (K : ℕ) (_hne : pages ≠ [])
    (hK : 1 ≤ K) :
    ((fifo pages (K : ℤ)).faults + (fifo pages (K : ℤ)).hits = pages.length ∧
     (fifo pages (K : ℤ)).results.length = pages.length ∧
     (fifo pages (K : ℤ)).states.length = pages.length) ∧
    ((lru pages (K : ℤ)).faults + (lru pages (K : ℤ)).hits = pages.length ∧
     (lru pages (K : ℤ)).results.length = pages.length ∧
     (lru pages (K : ℤ)).states.length = pages.length) ∧
    (∃ res, optimal pages (K : ℤ) = .ok res ∧
      res.faults + res.hits = pages.length ∧
      res.results.length = pages.length ∧
      res.states.length = pages.length) := by
  refine ⟨fifoGo_counts (K : ℤ) pages [], ?_, ?_⟩
  · obtain ⟨h1, h2, h3⟩ := lruGo_counts (K : ℤ) pages []
    refine ⟨?_, h2, h3⟩
    show (lruGo (K : ℤ) [] pages).1 +
      (pages.length - (lruGo (K : ℤ) [] pages).1) = pages.length
    omega
  · obtain ⟨res, hres, hc, hr, hs, _, _⟩ := optimalGo_main K pages [] hK
      List.nodup_nil (by simp)
    exact ⟨res, hres, hc, hr, hs⟩

/-- Claim C9: On a fault with all frames occupied, the victim scan always
selects some resident page, its removal succeeds, and `optimal` never
signals an internal failure: it returns a result on every non-empty
reference string with capacity `K ≥ 1`. -/
theorem optimal_never_fails (pages : List ℤ) (K : ℕ) (_hne : pages ≠ [])
    (hK : 1 ≤ K) :
    (∀ future frames : List ℤ, frames ≠ [] →
      ∃ b, victimScan future frames none (-1) = some b ∧ b ∈ frames) ∧
    ∃ res, optimal pages (K : ℤ) = .ok res := by
  constructor
  · intro future frames hf
    obtain ⟨b, h1, h2, _⟩ := victimScan_max future frames hf
    exact ⟨b, h1, h2⟩
  · obtain ⟨res, hres, _⟩ := optimalGo_main K pages [] hK List.nodup_nil
      (by simp)
    exact ⟨res, hres⟩

/-- Claim C5: In `fifo`: a hit mutates nothing (so the relative eviction
order of resident pages is never changed by a hit); a fault with the
frame list full evicts the head (earliest-inserted page) and appends the
new page at the tail; and the recorded state trace of a `fifo` run is
exactly the iteration of this step function from empty frames. -/
theorem fifo_step_behaviour (K : ℕ) (pages : List ℤ) (_hK : 1 ≤ K) :
    (∀ (frames : List ℤ) (p : ℤ), p ∈ frames →
      fifoUpdate (K : ℤ) frames p = frames) ∧
    (∀ (frames : List ℤ) (p h : ℤ) (t : List ℤ), p ∉ frames →
      frames = h :: t → frames.length = K →
      fifoUpdate (K : ℤ) frames p = t ++ [p]) ∧
    (fifo pages (K : ℤ)).states =
      (framesTrace (fifoUpdate (K : ℤ)) [] pages).map
        (fun g => record_state g (K : ℤ)) := by
  refine ⟨?_, ?_, fifoGo_states_eq_trace (K : ℤ) pages []⟩
  · intro frames p hp
    unfold fifoUpdate
    rw [if_pos hp]
  · intro frames p h t hp heq hlen
    unfold fifoUpdate
    rw [if_neg hp, if_pos (by exact_mod_cast hlen), heq]
    rfl

/-- Claim C6: In `lru`: a hit removes the referenced page from its current
position and re-appends it at the tail (most-recently-used position); a
fault with the stack full evicts the head (least-recently-used page) and
appends the new page at the tail; and the recorded state trace of an
`lru` run is exactly the iteration of this step function from an empty
stack. -/
theorem lru_step_behaviour (K : ℕ) (pages : List ℤ) (_hK : 1 ≤ K) :
    (∀ (stack : List ℤ) (p : ℤ), stack.Nodup → p ∈ stack →
      ∃ l₁ l₂, stack = l₁ ++ p :: l₂ ∧ p ∉ l₁ ∧
        lruUpdate (K : ℤ) stack p = (l₁ ++ l₂) ++ [p]) ∧
    (∀ (stack : List ℤ) (p h : ℤ) (t : List ℤ), p ∉ stack →
      stack = h :: t → stack.length = K →
      lruUpdate (K : ℤ) stack p = t ++ [p]) ∧
    (lru pages (K : ℤ)).states =
      (framesTrace (lruUpdate (K : ℤ)) [] pages).map
        (fun g => record_state g (K : ℤ)) := by
  refine ⟨?_, ?_, lruGo_states_eq_trace (K : ℤ) pages []⟩
  · intro stack p _ hp
    obtain ⟨l₁, l₂, heq, hnot, herase⟩ := erase_split stack p hp
    refine ⟨l₁, l₂, heq, hnot, ?_⟩
    unfold lruUpdate
    rw [if_pos hp, herase]
  · intro stack p h t hp heq hlen
    unfold lruUpdate
    rw [if_neg hp, if_pos (by exact_mod_cast hlen), heq]
    rfl

theorem fifoUpdate_mem (K : ℤ) (fr : List ℤ) (p : ℤ) :
    p ∈ fifoUpdate K fr p := by
  unfold fifoUpdate
  by_cases hp : p ∈ fr
  · rw [if_pos hp]
    exact hp
  · rw [if_neg hp]
    exact List.mem_append_right _ (List.mem_singleton_self p)

theorem lruUpdate_mem (K : ℤ) (st : List ℤ) (p : ℤ) :
    p ∈ lruUpdate K st p := by
  unfold lruUpdate
  by_cases hp : p ∈ st
  · rw [if_pos hp]
    exact List.mem_append_right _ (List.mem_singleton_self p)
  · rw [if_neg hp]
    exact List.mem_append_right _ (List.mem_singleton_self p)

theorem fifo_states_shape (pages : List ℤ) (K : ℕ) (hK : 1 ≤ K) :
    ∀ s ∈ (fifo pages (K : ℤ)).states, ∃ g : List ℤ,
      s = record_state g (K : ℤ) ∧ g.Nodup ∧ g.length ≤ K := by
  intro s hs
  rw [show (fifo pages (K : ℤ)).states =
    (framesTrace (fifoUpdate (K : ℤ)) [] pages).map
      (fun g => record_state g (K : ℤ)) from
    fifoGo_states_eq_trace (K : ℤ) pages []] at hs
  obtain ⟨g, hgtr, hgs⟩ := List.mem_map.mp hs
  obtain ⟨hnd, hlen⟩ := framesTrace_inv K (fifoUpdate (K : ℤ))
    (fun fr p hnd hlen =>
      ⟨(fifoUpdate_nodup K fr p hK hnd hlen).1,
       (fifoUpdate_nodup K fr p hK hnd hlen).2.1⟩)
    pages [] List.nodup_nil (by simp) g hgtr
  exact ⟨g, hgs.symm, hnd, hlen⟩

theorem lru_states_shape (pages : List ℤ) (K : ℕ) (hK : 1 ≤ K) :
    ∀ s ∈ (lru pages (K : ℤ)).states, ∃ g : List ℤ,
      s = record_state g (K : ℤ) ∧ g.Nodup ∧ g.length ≤ K := by
  intro s hs
  rw [show (lru pages (K : ℤ)).states =
    (framesTrace (lruUpdate (K : ℤ)) [] pages).map
      (fun g => record_state g (K : ℤ)) from
    lruGo_states_eq_trace (K : ℤ) pages []] at hs
  obtain ⟨g, hgtr, hgs⟩ := List.mem_map.mp hs
  obtain ⟨hnd, hlen⟩ := framesTrace_inv K (lruUpdate (K : ℤ))
    (fun fr p hnd hlen =>
      ⟨(lruUpdate_nodup K fr p hK hnd hlen).1,
       (lruUpdate_nodup K fr p hK hnd hlen).2.1⟩)
    pages [] List.nodup_nil (by simp) g hgtr
  exact ⟨g, hgs.symm, hnd, hlen⟩

theorem fifo_states_getElem_mem (pages : List ℤ) (K : ℕ) (i : ℕ) (p : ℤ)
    (s : List (Option ℤ)) (hp : pages[i]? = some p)
    (hs : (fifo pages (K : ℤ)).states[i]? = some s) : some p ∈ s := by
  rw [show (fifo pages (K : ℤ)).states =
    (framesTrace (fifoUpdate (K : ℤ)) [] pages).map
      (fun g => record_state g (K : ℤ)) from
    fifoGo_states_eq_trace (K : ℤ) pages [], List.getElem?_map] at hs
  obtain ⟨g, hg, hmem⟩ := framesTrace_getElem (fifoUpdate (K : ℤ))
    (fifoUpdate_mem (K : ℤ)) pages [] i p hp
  rw [hg] at hs
  have : record_state g (K : ℤ) = s := by
    simpa using hs
  exact this ▸ mem_record_state g (K : ℤ) p hmem

theorem lru_states_getElem_mem (pages : List ℤ) (K : ℕ) (i : ℕ) (p : ℤ)
    (s : List (Option ℤ)) (hp : pages[i]? = some p)
    (hs : (lru pages (K : ℤ)).states[i]? = some s) : some p ∈ s := by
  rw [show (lru pages (K : ℤ)).states =
    (framesTrace (lruUpdate (K : ℤ)) [] pages).map
      (fun g => record_state g (K : ℤ)) from
    lruGo_states_eq_trace (K : ℤ) pages [], List.getElem?_map] at hs
  obtain ⟨g, hg, hmem⟩ := framesTrace_getElem (lruUpdate (K : ℤ))
    (lruUpdate_mem (K : ℤ)) pages [] i p hp
  rw [hg] at hs
  have : record_state g (K : ℤ) = s := by
    simpa using hs
  exact this ▸ mem_record_state g (K : ℤ) p hmem

/-- Claim C7: Every recorded frame-state snapshot has length exactly `K`
and consists of the resident pages (as `some`-entries) followed by
`none`-padding; each snapshot is taken after the step's mutation, so on a
fault it contains the just-admitted page. -/
theorem state_snapshots_shape (pages : List ℤ) (K : ℕ) (_hne : pages ≠ [])
    (hK : 1 ≤ K) :
    ((∀ s ∈ (fifo pages (K : ℤ)).states, s.length = K ∧
        ∃ g : List ℤ, g.length ≤ K ∧
          s = g.map some ++ List.replicate (K - g.length) none) ∧
      ∀ (i : ℕ) (p : ℤ) (s : List (Option ℤ)),
        pages[i]? = some p → (fifo pages (K : ℤ)).states[i]? = some s →
        (fifo pages (K : ℤ)).results[i]? = some "Fault" → some p ∈ s) ∧
    ((∀ s ∈ (lru pages (K : ℤ)).states, s.length = K ∧
        ∃ g : List ℤ, g.length ≤ K ∧
          s = g.map some ++ List.replicate (K - g.length) none) ∧
      ∀ (i : ℕ) (p : ℤ) (s : List (Option ℤ)),
        pages[i]? = some p → (lru pages (K : ℤ)).states[i]? = some s →
        (lru pages (K : ℤ)).results[i]? = some "Fault" → some p ∈ s) ∧
    (∃ res, optimal pages (K : ℤ) = .ok res ∧
      (∀ s ∈ res.states, s.length = K ∧
        ∃ g : List ℤ, g.length ≤ K ∧
          s = g.map some ++ List.replicate (K - g.length) none) ∧
      ∀ (i : ℕ) (p : ℤ) (s : List (Option ℤ)),
        pages[i]? = some p → res.states[i]? = some s →
        res.results[i]? = some "Fault" → some p ∈ s) := by
  have hKt : ((K : ℤ)).toNat = K := by omega
  refine ⟨⟨?_, ?_⟩, ⟨?_, ?_⟩, ?_⟩
  · intro s hs
    obtain ⟨g, hgs, _, hlen⟩ := fifo_states_shape pages K hK s hs
    refine ⟨?_, g, hlen, by rw [hgs, record_state_eq g K hlen]⟩
    rw [hgs, record_state_length g (K : ℤ) (by exact_mod_cast hlen), hKt]
  · intro i p s hp hs _
    exact fifo_states_getElem_mem pages K i p s hp hs
  · intro s hs
    obtain ⟨g, hgs, _, hlen⟩ := lru_states_shape pages K hK s hs
    refine ⟨?_, g, hlen, by rw [hgs, record_state_eq g K hlen]⟩
    rw [hgs, record_state_length g (K : ℤ) (by exact_mod_cast hlen), hKt]
  · intro i p s hp hs _
    exact lru_states_getElem_mem pages K i p s hp hs
  · obtain ⟨res, hres, _, _, _, hshape, hmem⟩ := optimalGo_main K pages []
      hK List.nodup_nil (by simp)
    refine ⟨res, hres, ?_, ?_⟩
    · intro s hs
      obtain ⟨g, hgs, _, hlen⟩ := hshape s hs
      refine ⟨?_, g, hlen, by rw [hgs, record_state_eq g K hlen]⟩
      rw [hgs, record_state_length g (K : ℤ) (by exact_mod_cast hlen), hKt]
    · intro i p s hp hs _
      exact hmem i p s hp hs

/-- Claim C10: For every policy, every snapshot's non-`none` entries are
pairwise distinct: no page occupies two frames at once, at any step. -/
theorem snapshot_pages_distinct (pages : List ℤ) (K : ℕ) (hK : 1 ≤ K) :
    (∀ s ∈ (fifo pages (K : ℤ)).states, s.reduceOption.Nodup) ∧
    (∀ s ∈ (lru pages (K : ℤ)).states, s.reduceOption.Nodup) ∧
    (∃ res, optimal pages (K : ℤ) = .ok res ∧
      ∀ s ∈ res.states, s.reduceOption.Nodup) := by
  refine ⟨?_, ?_, ?_⟩
  · intro s hs
    obtain ⟨g, hgs, hnd, _⟩ := fifo_states_shape pages K hK s hs
    rw [hgs, record_state_reduceOption]
    exact hnd
  · intro s hs
    obtain ⟨g, hgs, hnd, _⟩ := lru_states_shape pages K hK s hs
    rw [hgs, record_state_reduceOption]
    exact hnd
  · obtain ⟨res, hres, _, _, _, hshape, _⟩ := optimalGo_main K pages []
      hK List.nodup_nil (by simp)
    refine ⟨res, hres, ?_⟩
    intro s hs
    obtain ⟨g, hgs, hnd, _⟩ := hshape s hs
    rw [hgs, record_state_reduceOption]
    exact hnd

/-- Claim C3 counterexample: `simulate` with capacity `-1` and policy FIFO
does not fail: Python truthiness accepts any nonzero capacity, so a
result is returned (with one fault for the one-page reference string). -/
theorem simulate_neg_capacity_accepted :
    ∃ r, simulate [1] (-1) "FIFO" = .ok r ∧ r.faults = 1 :=
  ⟨fifo [1] (-1), rfl, rfl⟩

/-- Claim C3 amended: `simulate` fails with an invalid-input error exactly
when the reference string is empty, the capacity is zero, or the policy
name is not FIFO/LRU/Optimal; negative capacities pass the truthiness
validation.  `compare` rejects exactly an empty reference string or a
zero capacity. -/
theorem simulate_validation_amended (pages : List ℤ) (nf : ℤ) (algo : String) :
    ((simulate pages nf algo = .error "Missing parameters" ∨
      simulate pages nf algo = .error "Invalid algorithm") ↔
      (pages = [] ∨ nf = 0 ∨
        (algo ≠ "FIFO" ∧ algo ≠ "LRU" ∧ algo ≠ "Optimal"))) ∧
    (compare pages nf = .error "Missing parameters" ↔
      (pages = [] ∨ nf = 0)) := by
  constructor
  · by_cases h1 : pages = [] ∨ nf = 0 ∨ algo = ""
    · constructor
      · intro _
        rcases h1 with h | h | h
        · exact Or.inl h
        · exact Or.inr (Or.inl h)
        · subst h
          exact Or.inr (Or.inr (by decide))
      · intro _
        unfold simulate
        rw [if_pos h1]
        exact Or.inl rfl
    · push_neg at h1
      obtain ⟨hpe, hnf, hae⟩ := h1
      have hcond : ¬ (pages = [] ∨ nf = 0 ∨ algo = "") := by
        push_neg
        exact ⟨hpe, hnf, hae⟩
      unfold simulate
      rw [if_neg hcond]
      by_cases h2 : algo = "FIFO"
      · rw [if_pos h2]
        constructor
        · rintro (hc | hc) <;> simp at hc
        · rintro (hc | hc | hc)
          · exact absurd hc hpe
          · exact absurd hc hnf
          · exact absurd h2 hc.1
      · rw [if_neg h2]
        by_cases h3 : algo = "LRU"
        · rw [if_pos h3]
          constructor
          · rintro (hc | hc) <;> simp at hc
          · rintro (hc | hc | hc)
            · exact absurd hc hpe
            · exact absurd hc hnf
            · exact absurd h3 hc.2.1
        · rw [if_neg h3]
          by_cases h4 : algo = "Optimal"
          · rw [if_pos h4]
            constructor
            · rintro (hc | hc)
              · have hv := optimalGo_error_string nf pages [] "Missing parameters" hc
                exact absurd hv (by decide)
              · have hv := optimalGo_error_string nf pages [] "Invalid algorithm" hc
                exact absurd hv (by decide)
            · rintro (hc | hc | hc)
              · exact absurd hc hpe
              · exact absurd hc hnf
              · exact absurd h4 hc.2.2
          · rw [if_neg h4]
            constructor
            · intro _
              exact Or.inr (Or.inr ⟨h2, h3, h4⟩)
            · intro _
              exact Or.inr rfl
  · by_cases h : pages = [] ∨ nf = 0
    · unfold compare
      rw [if_pos h]
      exact ⟨fun _ => h, fun _ => rfl⟩
    · unfold compare
      rw [if_neg h]
      constructor
      · intro hc
        cases hopt : optimal pages nf with
        | ok r =>
          rw [hopt] at hc
          simp [bind_ok_eq] at hc
        | error s =>
          rw [hopt] at hc
          have hs := optimalGo_error_string nf pages [] s hopt
          simp [bind_error_eq] at hc
          rw [hc] at hs
          exact absurd hs (by decide)
      · intro hc
        exact absurd hc h

/-- Claim C8: On the classic reference string `[7,0,1,2,0,3,0,4,2,3,0,3,2]`
with capacity 4, `optimal` yields exactly 6 faults while `fifo` and `lru`
each yield at least 6. -/
theorem classic_example_counts :
    Except.map SimResult.faults
      (optimal [7, 0, 1, 2, 0, 3, 0, 4, 2, 3, 0, 3, 2] 4) = .ok 6 ∧
    6 ≤ (fifo [7, 0, 1, 2, 0, 3, 0, 4, 2, 3, 0, 3, 2] 4).faults ∧
    6 ≤ (lru [7, 0, 1, 2, 0, 3, 0, 4, 2, 3, 0, 3, 2] 4).faults := by
  exact ⟨rfl, by decide, by decide⟩

theorem optimal_victim_selection_witness :
    ∃ b, victimScan [2, 1] [1, 3] none (-1) = some b ∧
      optimalGo ((2 : ℕ) : ℤ) [1, 3] (5 :: [2, 1]) =
        Except.map (fun r => ⟨r.faults + 1, r.hits,
          record_state ([1, 3].erase b ++ [5]) ((2 : ℕ) : ℤ) :: r.states,
          "Fault" :: r.results⟩)
          (optimalGo ((2 : ℕ) : ℤ) ([1, 3].erase b ++ [5]) [2, 1]) ∧
      ((idx? b [2, 1] = none ∧ ∃ l₁ l₂, [1, 3] = l₁ ++ b :: l₂ ∧
          ∀ g ∈ l₁, idx? g [2, 1] ≠ none) ∨
       ((∀ g ∈ [1, 3], idx? g [2, 1] ≠ none) ∧
        ∃ l₁ l₂ nb, [1, 3] = l₁ ++ b :: l₂ ∧ idx? b [2, 1] = some nb ∧
          (∀ g ∈ l₁, ∀ m, idx? g [2, 1] = some m → m < nb) ∧
          (∀ g ∈ l₂, ∀ m, idx? g [2, 1] = some m → m ≤ nb))) :=
  optimal_victim_selection 2 [1, 3] 5 [2, 1] (by decide) (by decide)
    (by decide) (by decide)

theorem optimal_fault_lower_bound_witness :
    ∃ n, Except.map SimResult.faults
        (optimal [7, 0, 7, 1] ((2 : ℕ) : ℤ)) = .ok n ∧
      n ≤ (fifo [7, 0, 7, 1] ((2 : ℕ) : ℤ)).faults ∧
      n ≤ (lru [7, 0, 7, 1] ((2 : ℕ) : ℤ)).faults :=
  optimal_fault_lower_bound [7, 0, 7, 1] 2 (by decide)

theorem counts_sum_and_lengths_witness :
    ((fifo [1, 2, 1] ((2 : ℕ) : ℤ)).faults +
        (fifo [1, 2, 1] ((2 : ℕ) : ℤ)).hits = 3 ∧
      (fifo [1, 2, 1] ((2 : ℕ) : ℤ)).results.length = 3 ∧
      (fifo [1, 2, 1] ((2 : ℕ) : ℤ)).states.length = 3) ∧
    ((lru [1, 2, 1] ((2 : ℕ) : ℤ)).faults +
        (lru [1, 2, 1] ((2 : ℕ) : ℤ)).hits = 3 ∧
      (lru [1, 2, 1] ((2 : ℕ) : ℤ)).results.length = 3 ∧
      (lru [1, 2, 1] ((2 : ℕ) : ℤ)).states.length = 3) ∧
    (∃ res, optimal [1, 2, 1] ((2 : ℕ) : ℤ) = .ok res ∧
      res.faults + res.hits = 3 ∧
      res.results.length = 3 ∧
      res.states.length = 3) :=
  counts_sum_and_lengths [1, 2, 1] 2 (by decide) (by decide)

theorem fifo_step_behaviour_witness :
    fifoUpdate ((2 : ℕ) : ℤ) [7, 8] 7 = [7, 8] ∧
    fifoUpdate ((2 : ℕ) : ℤ) [7, 8] 9 = [8] ++ [9] ∧
    (fifo [7, 7, 9] ((2 : ℕ) : ℤ)).states =
      (framesTrace (fifoUpdate ((2 : ℕ) : ℤ)) [] [7, 7, 9]).map
        (fun g => record_state g ((2 : ℕ) : ℤ)) :=
  ⟨(fifo_step_behaviour 2 [7, 7, 9] (by decide)).1 [7, 8] 7 (by decide),
   (fifo_step_behaviour 2 [7, 7, 9] (by decide)).2.1 [7, 8] 9 7 [8]
     (by decide) rfl (by decide),
   (fifo_step_behaviour 2 [7, 7, 9] (by decide)).2.2⟩

theorem lru_step_behaviour_witness :
    (∃ l₁ l₂, [7, 8] = l₁ ++ 7 :: l₂ ∧ (7 : ℤ) ∉ l₁ ∧
      lruUpdate ((2 : ℕ) : ℤ) [7, 8] 7 = (l₁ ++ l₂) ++ [7]) ∧
    lruUpdate ((2 : ℕ) : ℤ) [7, 8] 9 = [8] ++ [9] ∧
    (lru [7, 8, 7, 9] ((2 : ℕ) : ℤ)).states =
      (framesTrace (lruUpdate ((2 : ℕ) : ℤ)) [] [7, 8, 7, 9]).map
        (fun g => record_state g ((2 : ℕ) : ℤ)) :=
  ⟨(lru_step_behaviour 2 [7, 8, 7, 9] (by decide)).1 [7, 8] 7 (by decide)
     (by decide),
   (lru_step_behaviour 2 [7, 8, 7, 9] (by decide)).2.1 [7, 8] 9 7 [8]
     (by decide) rfl (by decide),
   (lru_step_behaviour 2 [7, 8, 7, 9] (by decide)).2.2⟩

theorem state_snapshots_shape_witness :
    ((∀ s ∈ (fifo [1, 2] ((1 : ℕ) : ℤ)).states, s.length = 1 ∧
        ∃ g : List ℤ, g.length ≤ 1 ∧
          s = g.map some ++ List.replicate (1 - g.length) none) ∧
      ∀ (i : ℕ) (p : ℤ) (s : List (Option ℤ)),
        [1, 2][i]? = some p →
        (fifo [1, 2] ((1 : ℕ) : ℤ)).states[i]? = some s →
        (fifo [1, 2] ((1 : ℕ) : ℤ)).results[i]? = some "Fault" →
        some p ∈ s) ∧
    ((∀ s ∈ (lru [1, 2] ((1 : ℕ) : ℤ)).states, s.length = 1 ∧
        ∃ g : List ℤ, g.length ≤ 1 ∧
          s = g.map some ++ List.replicate (1 - g.length) none) ∧
      ∀ (i : ℕ) (p : ℤ) (s : List (Option ℤ)),
        [1, 2][i]? = some p →
        (lru [1, 2] ((1 : ℕ) : ℤ)).states[i]? = some s →
        (lru [1, 2] ((1 : ℕ) : ℤ)).results[i]? = some "Fault" →
        some p ∈ s) ∧
    (∃ res, optimal [1, 2] ((1 : ℕ) : ℤ) = .ok res ∧
      (∀ s ∈ res.states, s.length = 1 ∧
        ∃ g : List ℤ, g.length ≤ 1 ∧
          s = g.map some ++ List.replicate (1 - g.length) none) ∧
      ∀ (i : ℕ) (p : ℤ) (s : List (Option ℤ)),
        [1, 2][i]? = some p → res.states[i]? = some s →
        res.results[i]? = some "Fault" → some p ∈ s) :=
  state_snapshots_shape [1, 2] 1 (by decide) (by decide)

theorem optimal_never_fails_witness :
    (∀ future frames : List ℤ, frames ≠ [] →
      ∃ b, victimScan future frames none (-1) = some b ∧ b ∈ frames) ∧
    ∃ res, optimal [4] ((1 : ℕ) : ℤ) = .ok res :=
  optimal_never_fails [4] 1 (by decide) (by decide)

theorem snapshot_pages_distinct_witness :
    (∀ s ∈ (fifo [5, 5, 6] ((2 : ℕ) : ℤ)).states, s.reduceOption.Nodup) ∧
    (∀ s ∈ (lru [5, 5, 6] ((2 : ℕ) : ℤ)).states, s.reduceOption.Nodup) ∧
    (∃ res, optimal [5, 5, 6] ((2 : ℕ) : ℤ) = .ok res ∧
      ∀ s ∈ res.states, s.reduceOption.Nodup) :=
  snapshot_pages_distinct [5, 5, 6] 2 (by decide)

end PageSim
